import Mathlib

/-!
Shallow embedding of the `structraw` Go package (binary struct codec):
`errors.go` (tag parsing, field operation factory, `putUint`/`getUint`),
`serializer.go` (plan builder, plan cache, codec façade) and
`struct_len.go` (`StructLen`).  Machine integers are modelled as `Nat`
with explicit `% 2^w` truncation where Go converts between widths;
fallible Go functions returning `(T, error)` are modelled as pairs with
`Option GoErr`; Go `panic` is modelled by the `POr` result wrapper.
-/

namespace Structraw

/-- The four sentinel errors declared in `errors.go`, plus underlying
I/O errors produced by a sink/source (e.g. `io.EOF`), identified by a code. -/
inductive GoErrBase
  | tagFormat
  | readData
  | invalidType
  | writeDataLen
  | ioFail (code : Nat)
  deriving DecidableEq

/-- A Go error value: either a sentinel/base error or a wrapped error as
produced by `fmt.Errorf` with the `%w` verb (message plus wrapped error). -/
inductive GoErr
  | base (b : GoErrBase)
  | wrap (msg : String) (e : GoErr)
  deriving DecidableEq

/-- `errors.Is`: does this error match the given sentinel (unwrapping)? -/
def GoErr.is : GoErr → GoErrBase → Bool
  | .base b, t => b = t
  | .wrap _ e, t => e.is t

/-- `binary.ByteOrder`: `binary.BigEndian` or `binary.LittleEndian`. -/
inductive ByteOrder
  | be
  | le
  deriving DecidableEq

/-- The `reflect.Kind`s relevant to the codec: the four supported unsigned
widths, the signed widths (unsupported), and array/slice with their element
kind (arrays also carry the type-level length). -/
inductive GoKind
  | uint8
  | uint16
  | uint32
  | uint64
  | int8
  | int16
  | int32
  | int64
  | array (elem : GoKind) (n : Nat)
  | slice (elem : GoKind)
  deriving DecidableEq

/-- `reflect.Kind.String()` for the kinds we model (used in error messages). -/
def GoKind.str : GoKind → String
  | .uint8 => "uint8"
  | .uint16 => "uint16"
  | .uint32 => "uint32"
  | .uint64 => "uint64"
  | .int8 => "int8"
  | .int16 => "int16"
  | .int32 => "int32"
  | .int64 => "int64"
  | .array _ _ => "array"
  | .slice _ => "slice"

/-- One `reflect.StructField`: name, type kind, the `structraw` tag value
(`field.Tag.Get(FieldTagName)`), and `PkgPath` (empty iff exported). -/
structure Field where
  name : String
  kind : GoKind
  tag : String
  pkgPath : String
  deriving DecidableEq

/-- The runtime value stored in one struct field.
`uint` for unsigned integer fields, `bytes` for byte arrays/slices,
`nonBytes` for arrays/slices of non-byte elements (only the length is
observable to this codec), `other` for any other value (e.g. a signed
integer), on which `reflect`'s `Uint`/`Len`/`Bytes` would panic. -/
inductive FieldValue
  | uint (v : Nat)
  | bytes (bs : List Nat)
  | nonBytes (len : Nat)
  | other
  deriving DecidableEq

/-- A `reflect.Value` at the top level of the façade: a struct value with
its type's field list and the per-field values, a pointer, or anything else. -/
inductive GoValue
  | structV (typ : List Field) (vals : List FieldValue)
  | ptr (v : GoValue)
  | nonStruct

/-- Result of running Go code that may panic. -/
inductive POr (α : Type u)
  | panic (msg : String)
  | val (a : α)

/-- Is the result a normal (non-panicking) one? -/
def POr.isVal : POr α → Bool
  | .panic _ => false
  | .val _ => true

/-- An `io.Writer`: `write` takes the state and the bytes and returns the new
state, the count of bytes accepted, and an optional error. -/
structure Writer (σ : Type) where
  write : σ → List Nat → σ × Nat × Option GoErr

/-- An `io.Reader`: `read` takes the state and the requested byte count
(the buffer length) and returns the new state, the bytes placed in the
buffer, and an optional error.  The count returned by Go's `Read` is the
length of the returned byte list. -/
structure Reader (σ : Type) where
  read : σ → Nat → σ × List Nat × Option GoErr

/-- `fieldTag` from `errors.go`: the resolved byte order (nil if absent). -/
structure fieldTag where
  endian : Option ByteOrder
  deriving DecidableEq

/-- `uintOptions` from `errors.go`. -/
structure uintOptions where
  NeedEndian : Bool
  BitSize : Nat
  deriving DecidableEq

/-- `parseUintOptions` from `errors.go`. -/
def parseUintOptions : GoKind → Option uintOptions
  | .uint8 => some ⟨false, 1⟩
  | .uint16 => some ⟨true, 2⟩
  | .uint32 => some ⟨true, 4⟩
  | .uint64 => some ⟨true, 8⟩
  | _ => none

/-- Helper for `stringsSplitComma`: `acc` holds the current token's
characters in reverse. -/
def splitCommaAux : List Char → List Char → List String
  | [], acc => [String.mk acc.reverse]
  | c :: cs, acc =>
    if c = ',' then String.mk acc.reverse :: splitCommaAux cs []
    else splitCommaAux cs (c :: acc)

/-- Go's `strings.Split(s, ",")`: the comma-separated tokens of `s`
(the empty string yields one empty token, like in Go). -/
def stringsSplitComma (s : String) : List String :=
  splitCommaAux s.data []

/-- The token loop of `newFieldTag`: fold over the comma-separated tokens,
accumulating the byte order (`t.endian` starts as nil).  A non-empty token
other than `be`/`le` and a second order token are `ErrTagFormat`. -/
def tagLoop (fieldName : String) : List String → Option ByteOrder →
    Except GoErr (Option ByteOrder)
  | [], e => .ok e
  | l :: ls, e =>
    if l = "" then tagLoop fieldName ls e
    else if l = "be" ∨ l = "le" then
      match e with
      | some _ => .error (.wrap "Endian duplicate" (.base .tagFormat))
      | none =>
        tagLoop fieldName ls (some (if l = "be" then ByteOrder.be else ByteOrder.le))
    else
      .error (.wrap ("field:" ++ fieldName ++ " tag: " ++ l ++ " not support")
        (.base .tagFormat))

/-- `newFieldTag` from `errors.go`: split the tag on commas, run the token
loop, then require a byte order when the kind's `uintOptions` demand one. -/
def newFieldTag (fieldName : String) (tag : String) (uo : Option uintOptions) :
    Except GoErr fieldTag :=
  match tagLoop fieldName (stringsSplitComma tag) none with
  | .error e => .error e
  | .ok endian =>
    if (uo.map (·.NeedEndian)).getD false = true ∧ endian = none then
      .error (.wrap "Endian not found" (.base .tagFormat))
    else
      .ok ⟨endian⟩

/-- Little-endian byte decomposition: `w` bytes of `v`, least significant
first (implicitly truncating to `w` bytes, like Go's width conversions). -/
def leBytes : Nat → Nat → List Nat
  | 0, _ => []
  | w + 1, v => v % 256 :: leBytes w (v / 256)

/-- Big-endian byte decomposition: most significant byte first. -/
def beBytes (w v : Nat) : List Nat :=
  (leBytes w v).reverse

/-- `endian.PutUintN`: the `w`-byte encoding of `v` in the given order. -/
def orderPut (e : ByteOrder) (w v : Nat) : List Nat :=
  match e with
  | .be => beBytes w v
  | .le => leBytes w v

/-- Little-endian recomposition of a byte list (each entry narrowed to a
byte with `% 256`, as the Go `[8]byte` buffer stores bytes). -/
def leToNat : List Nat → Nat
  | [] => 0
  | b :: bs => b % 256 + 256 * leToNat bs

/-- Big-endian recomposition. -/
def beToNat (bs : List Nat) : Nat :=
  leToNat bs.reverse

/-- `endian.UintN`: decode a byte list in the given order. -/
def orderGet (e : ByteOrder) (bs : List Nat) : Nat :=
  match e with
  | .be => beToNat bs
  | .le => leToNat bs

/-- The write/check tail of `putUint`: write the encoded bytes once, wrap a
sink error as `write data error:%w`, flag a short write as
`ErrWriteDataLen`, otherwise return the count. -/
def putUintWrite (b : List Nat) (bitSize : Nat) (w : Writer σ) (s : σ) :
    POr (σ × Nat × Option GoErr) :=
  match w.write s b with
  | (s', _, some err) => .val (s', 0, some (.wrap "write data error" err))
  | (s', n, none) =>
    if n ≠ bitSize then
      .val (s', 0, some (.wrap
        ("write data len[" ++ toString n ++ "] not equal to bit size[" ++
          toString bitSize ++ "]") (.base .writeDataLen)))
    else
      .val (s', n, none)

/-- `putUint` from `errors.go`: panic when `bitSize > 1` with no byte order,
encode per the `bitSize` switch (its `default` panics before any write; a
nil byte order inside a multi-byte case would be a nil dereference), then
write once via `putUintWrite`. -/
def putUint (ui : Nat) (endian : Option ByteOrder) (bitSize : Nat)
    (w : Writer σ) (s : σ) : POr (σ × Nat × Option GoErr) :=
  if bitSize > 1 ∧ endian = none then .panic "endianness bitSize is too large"
  else
    match bitSize, endian with
    | 1, _ => putUintWrite [ui % 256] 1 w s
    | 2, some e => putUintWrite (orderPut e 2 ui) 2 w s
    | 4, some e => putUintWrite (orderPut e 4 ui) 4 w s
    | 8, some e => putUintWrite (orderPut e 8 ui) 8 w s
    | 2, none | 4, none | 8, none => .panic "nil pointer dereference"
    | _, _ => .panic "invalid bitSize"

/-- `getUint` from `errors.go`: panic when `bitSize > 1` with no byte order,
read `bitSize` bytes once, wrap a source error as `read data error:%w`, flag
a short read as `ErrReadData`, then decode per the `bitSize` switch (whose
`default` panics).  Returns `(value, count, error)`. -/
def getUint (endian : Option ByteOrder) (bitSize : Nat)
    (r : Reader σ) (s : σ) : POr (σ × Nat × Nat × Option GoErr) :=
  if bitSize > 1 ∧ endian = none then .panic "endianness bitSize is too large"
  else
    match r.read s bitSize with
    | (s', _, some err) => .val (s', 0, 0, some (.wrap "read data error" err))
    | (s', bs, none) =>
      if bs.length ≠ bitSize then
        .val (s', 0, 0, some (.wrap
          ("read bit size[" ++ toString bs.length ++
            "] not equal to bit size[" ++ toString bitSize ++ "]")
          (.base .readData)))
      else
        match bitSize, endian with
        | 1, _ => .val (s', bs.headD 0 % 256, 1, none)
        | 2, some e => .val (s', orderGet e bs, 2, none)
        | 4, some e => .val (s', orderGet e bs, 4, none)
        | 8, some e => .val (s', orderGet e bs, 8, none)
        | 2, none | 4, none | 8, none => .panic "nil pointer dereference"
        | _, _ => .panic "invalid bitSize"

/-- The type of a bound `marshalFunc` closure
(`func(v reflect.Value, w io.Writer) (int, error)`), usable with any sink. -/
def MarshalFn : Type 1 :=
  ∀ {σ : Type}, FieldValue → Writer σ → σ → POr (σ × Nat × Option GoErr)

/-- The type of a bound `unmarshalFunc` closure
(`func(v reflect.Value, r io.Reader) (int, error)`); it additionally
returns the field's (possibly mutated) value. -/
def UnmarshalFn : Type 1 :=
  ∀ {σ : Type}, FieldValue → Reader σ → σ → POr (σ × FieldValue × Nat × Option GoErr)

/-- The byte-sequence branch of `newMarshalFunc`'s closure: write the
field's bytes (`valueByteArrayToByteSlice(v)` for arrays, `v.Bytes()` for
slices — both are the stored bytes) in one call, propagate a sink error
unchanged, and flag `n != v.Len()` as `ErrWriteDataLen`.  On a value that
is not a byte sequence, `reflect` panics. -/
def seqMarshalOp : MarshalFn := fun v w s =>
  match v with
  | .bytes bs =>
    match w.write s bs with
    | (s', _, some err) => .val (s', 0, some err)
    | (s', n, none) =>
      if n ≠ bs.length then
        .val (s', 0, some (.wrap
          ("write data len[" ++ toString n ++ "] not equal to data len[" ++
            toString bs.length ++ "]") (.base .writeDataLen)))
      else
        .val (s', n, none)
  | _ => .panic "reflect: call of reflect.Value.Bytes on wrong kind"

/-- The byte-sequence branch of `newUnmarshalFunc`'s closure: read
`v.Len()` bytes (the destination's pre-existing length) in one call,
propagate a source error unchanged, flag `n != v.Len()` as the bare
`ErrReadData`, then store the bytes (`copy` for arrays, `SetBytes` for
slices — both leave the length unchanged). -/
def seqUnmarshalOp : UnmarshalFn := fun v r s =>
  match v with
  | .bytes cur =>
    match r.read s cur.length with
    | (s', _, some err) => .val (s', v, 0, some err)
    | (s', bs, none) =>
      if bs.length ≠ cur.length then
        .val (s', v, 0, some (.base .readData))
      else
        .val (s', .bytes (bs.map (· % 256)), cur.length, none)
  | _ => .panic "reflect: call of reflect.Value.Len on wrong kind"

/-- `newMarshalFunc` from `errors.go`: unsigned kinds get a `putUint`
closure over the captured `uo.BitSize` and `tag.endian` (dereferencing the
captured `uo` pointer); arrays and slices require a byte element kind, else
`ErrInvalidType`; every other kind is `ErrInvalidType`. -/
def newMarshalFunc (field : Field) (uo : Option uintOptions) (tag : fieldTag) :
    Except GoErr MarshalFn :=
  match field.kind with
  | .uint8 | .uint16 | .uint32 | .uint64 =>
    .ok (fun v w s =>
      match uo with
      | none => .panic "runtime error: invalid memory address or nil pointer dereference"
      | some u =>
        match v with
        | .uint ui => putUint ui tag.endian u.BitSize w s
        | _ => .panic "reflect: call of reflect.Value.Uint on wrong kind")
  | .array elem _ =>
    if elem ≠ .uint8 then
      .error (.wrap ("field:" ++ field.name ++ " kind:" ++ field.kind.str ++
        " not support") (.base .invalidType))
    else
      .ok seqMarshalOp
  | .slice elem =>
    if elem ≠ .uint8 then
      .error (.wrap ("field:" ++ field.name ++ " kind:" ++ field.kind.str ++
        " not support") (.base .invalidType))
    else
      .ok seqMarshalOp
  | _ =>
    .error (.wrap ("field:" ++ field.name ++ " kind:" ++ field.kind.str ++
      " not support") (.base .invalidType))

/-- `fieldMarshaler` from `errors.go`. -/
structure fieldMarshaler : Type 1 where
  field : Field
  tag : fieldTag
  marshalFn : MarshalFn

/-- `newFieldMarshaler`: resolve `uintOptions` and the tag, then build the
bound marshal closure. -/
def newFieldMarshaler (field : Field) : Except GoErr fieldMarshaler :=
  let uo := parseUintOptions field.kind
  match newFieldTag field.name field.tag uo with
  | .error e => .error e
  | .ok tag =>
    match newMarshalFunc field uo tag with
    | .error e => .error e
    | .ok fn => .ok ⟨field, tag, fn⟩

/-- `newUnmarshalFunc` from `errors.go`: unsigned kinds get a `getUint`
closure followed by `v.SetUint` (erroring before mutating the field);
arrays and slices require a byte element kind, else `ErrInvalidType`;
every other kind is `ErrInvalidType`. -/
def newUnmarshalFunc (field : Field) (uo : Option uintOptions) (tag : fieldTag) :
    Except GoErr UnmarshalFn :=
  match field.kind with
  | .uint8 | .uint16 | .uint32 | .uint64 =>
    .ok (fun v r s =>
      match uo with
      | none => .panic "runtime error: invalid memory address or nil pointer dereference"
      | some u =>
        match getUint tag.endian u.BitSize r s with
        | .panic m => .panic m
        | .val (s', _, _, some err) => .val (s', v, 0, some err)
        | .val (s', ui, n, none) =>
          match v with
          | .uint _ => .val (s', .uint ui, n, none)
          | _ => .panic "reflect: call of reflect.Value.SetUint on wrong kind")
  | .array elem _ =>
    if elem ≠ .uint8 then
      .error (.wrap ("field:" ++ field.name ++ " kind:" ++ field.kind.str ++
        " not support") (.base .invalidType))
    else
      .ok seqUnmarshalOp
  | .slice elem =>
    if elem ≠ .uint8 then
      .error (.wrap ("field:" ++ field.name ++ " kind:" ++ field.kind.str ++
        " not support") (.base .invalidType))
    else
      .ok seqUnmarshalOp
  | _ =>
    .error (.wrap ("field:" ++ field.name ++ " kind:" ++ field.kind.str ++
      " not support") (.base .invalidType))

/-- `fieldUnmarshaler` from `errors.go`. -/
structure fieldUnmarshaler : Type 1 where
  field : Field
  tag : fieldTag
  unmarshalFn : UnmarshalFn

/-- `newFieldUnmarshaler`: resolve `uintOptions` and the tag, then build
the bound unmarshal closure. -/
def newFieldUnmarshaler (field : Field) : Except GoErr fieldUnmarshaler :=
  let uo := parseUintOptions field.kind
  match newFieldTag field.name field.tag uo with
  | .error e => .error e
  | .ok tag =>
    match newUnmarshalFunc field uo tag with
    | .error e => .error e
    | .ok fn => .ok ⟨field, tag, fn⟩

/-- `fieldLen` from `struct_len.go`: fixed sizes for the unsigned kinds,
`value.Len()` for arrays and slices (note: no element-kind check here),
`ErrInvalidType` for every other kind. -/
def fieldLen (field : Field) (value : FieldValue) : POr (Nat × Option GoErr) :=
  match field.kind with
  | .uint8 => .val (1, none)
  | .uint16 => .val (2, none)
  | .uint32 => .val (4, none)
  | .uint64 => .val (8, none)
  | .array _ _ | .slice _ =>
    match value with
    | .bytes bs => .val (bs.length, none)
    | .nonBytes len => .val (len, none)
    | _ => .panic "reflect: call of reflect.Value.Len on wrong kind"
  | _ =>
    .val (0, some (.wrap ("field:" ++ field.name ++ " type kind:" ++
      field.kind.str ++ " not support") (.base .invalidType)))

/-- The loop of `structLen`: fields in declaration order, skipping
unexported fields (`PkgPath != ""`); the first `fieldLen` error aborts with
count 0. -/
def structLenAux : List Field → List FieldValue → Nat → POr (Nat × Option GoErr)
  | [], _, acc => .val (acc, none)
  | _ :: _, [], _ => .panic "reflect: Field index out of range"
  | f :: fs, v :: vs, acc =>
    if f.pkgPath ≠ "" then structLenAux fs vs acc
    else
      match fieldLen f v with
      | .panic m => .panic m
      | .val (_, some e) => .val (0, some e)
      | .val (l, none) => structLenAux fs vs (acc + l)

/-- `StructLen` from `struct_len.go`: indirect one pointer, require a
struct value (else the bare `ErrInvalidType`), then sum the field lengths. -/
def StructLen (s : GoValue) : POr (Nat × Option GoErr) :=
  match (match s with | .ptr v => v | v => v) with
  | .structV typ vals => structLenAux typ vals 0
  | _ => .val (0, some (.base .invalidType))

/-- `marshaler` from `serializer.go`: the compiled plan.  Go keeps two
parallel slices `fieldIndex [][]int` and `fieldMarshaler []*fieldMarshaler`
appended in lockstep; here they are the paired list (a top-level field's
`Index` is its position `i`). -/
structure marshaler : Type 1 where
  plan : List (Nat × fieldMarshaler)

/-- The loop of `newMarshaler`, carrying the field position `i`: skip
unexported fields, abort the whole plan on the first field error. -/
def newMarshalerAux (i : Nat) : List Field →
    Except GoErr (List (Nat × fieldMarshaler))
  | [] => .ok []
  | f :: fs =>
    if f.pkgPath ≠ "" then newMarshalerAux (i + 1) fs
    else
      match newFieldMarshaler f with
      | .error e => .error e
      | .ok fm =>
        match newMarshalerAux (i + 1) fs with
        | .error e => .error e
        | .ok rest => .ok ((i, fm) :: rest)

/-- `newMarshaler` from `serializer.go`. -/
def newMarshaler (typ : List Field) : Except GoErr marshaler :=
  match newMarshalerAux 0 typ with
  | .error e => .error e
  | .ok plan => .ok ⟨plan⟩

/-- `marshaler.marshal`: run the plan's field closures in order against the
sink, accumulating the byte count `n`; the first field error returns
`(0, err)`, discarding the accumulated count. -/
def runMarshaler : List (Nat × fieldMarshaler) → List FieldValue →
    Writer σ → σ → Nat → POr (σ × Nat × Option GoErr)
  | [], _, _, s, n => .val (s, n, none)
  | (idx, fm) :: rest, vals, w, s, n =>
    match vals[idx]? with
    | none => .panic "reflect: Field index out of range"
    | some v =>
      match fm.marshalFn v w s with
      | .panic m => .panic m
      | .val (s', _, some err) => .val (s', 0, some err)
      | .val (s', num, none) => runMarshaler rest vals w s' (n + num)

/-- `unmarshaler` from `serializer.go` (parallel slices paired, as for
`marshaler`). -/
structure unmarshaler : Type 1 where
  plan : List (Nat × fieldUnmarshaler)

/-- The loop of `newUnmarshaler`. -/
def newUnmarshalerAux (i : Nat) : List Field →
    Except GoErr (List (Nat × fieldUnmarshaler))
  | [] => .ok []
  | f :: fs =>
    if f.pkgPath ≠ "" then newUnmarshalerAux (i + 1) fs
    else
      match newFieldUnmarshaler f with
      | .error e => .error e
      | .ok fu =>
        match newUnmarshalerAux (i + 1) fs with
        | .error e => .error e
        | .ok rest => .ok ((i, fu) :: rest)

/-- `newUnmarshaler` from `serializer.go`. -/
def newUnmarshaler (typ : List Field) : Except GoErr unmarshaler :=
  match newUnmarshalerAux 0 typ with
  | .error e => .error e
  | .ok plan => .ok ⟨plan⟩

/-- `unmarshaler.unmarshal`: run the plan's field closures in order against
the source, mutating the record's fields in place; the first field error
returns `(0, err)` with earlier fields already mutated. -/
def runUnmarshaler : List (Nat × fieldUnmarshaler) → List FieldValue →
    Reader σ → σ → Nat → POr (σ × List FieldValue × Nat × Option GoErr)
  | [], vals, _, s, n => .val (s, vals, n, none)
  | (idx, fu) :: rest, vals, r, s, n =>
    match vals[idx]? with
    | none => .panic "reflect: Field index out of range"
    | some v =>
      match fu.unmarshalFn v r s with
      | .panic m => .panic m
      | .val (s', v', _, some err) => .val (s', vals.set idx v', 0, some err)
      | .val (s', v', num, none) =>
        runUnmarshaler rest (vals.set idx v') r s' (n + num)

/-- The `SafeMap` state (an `RWMutex`-guarded Go map), modelled as an
association list; the claims about it are stated over its sequential
`Load`/`LoadOrStore` semantics. -/
def Cache (V : Type 1) : Type 1 :=
  List (List Field × V)

/-- `SafeMap.Load`. -/
def cacheLoad (m : Cache V) (k : List Field) : Option V :=
  match m with
  | [] => none
  | (k', v) :: rest => if k' = k then some v else cacheLoad rest k

/-- `SafeMap.LoadOrStore`: return the existing entry when present (the map
is unchanged and the candidate is discarded), otherwise store and return
the candidate.  Returns `(map, actual, loaded)`. -/
def cacheLoadOrStore (m : Cache V) (k : List Field) (v : V) :
    Cache V × V × Bool :=
  match cacheLoad m k with
  | some existing => (m, existing, true)
  | none => ((k, v) :: m, v, false)

/-- `getMarshaler` from `serializer.go`, with the global `marshalCache`
threaded explicitly: on a miss build a candidate (construction failures are
not cached) and publish it with `LoadOrStore`. -/
def getMarshaler (cache : Cache marshaler) (typ : List Field) :
    Cache marshaler × Except GoErr marshaler :=
  match cacheLoad cache typ with
  | some c => (cache, .ok c)
  | none =>
    match newMarshaler typ with
    | .error e => (cache, .error e)
    | .ok m =>
      let r := cacheLoadOrStore cache typ m
      (r.1, .ok r.2.1)

/-- `getUnmarshaler` from `serializer.go` (the `unmarshalCache` analogue). -/
def getUnmarshaler (cache : Cache unmarshaler) (typ : List Field) :
    Cache unmarshaler × Except GoErr unmarshaler :=
  match cacheLoad cache typ with
  | some c => (cache, .ok c)
  | none =>
    match newUnmarshaler typ with
    | .error e => (cache, .error e)
    | .ok u =>
      let r := cacheLoadOrStore cache typ u
      (r.1, .ok r.2.1)

/-- The package-private `marshal(value, w)`: fetch or build the plan, then
run it (a plan error returns `(0, err)` with nothing written). -/
def marshalValue (cache : Cache marshaler) (typ : List Field)
    (vals : List FieldValue) (w : Writer σ) (st : σ) :
    Cache marshaler × POr (σ × Nat × Option GoErr) :=
  match getMarshaler cache typ with
  | (c', .error e) => (c', .val (st, 0, some e))
  | (c', .ok m) => (c', runMarshaler m.plan vals w st 0)

/-- `MarshalToWriter`: indirect one pointer, require a struct value (else
`ErrInvalidType` with count 0), then marshal. -/
def MarshalToWriter (cache : Cache marshaler) (s : GoValue)
    (w : Writer σ) (st : σ) : Cache marshaler × POr (σ × Nat × Option GoErr) :=
  match (match s with | .ptr v => v | v => v) with
  | .structV typ vals => marshalValue cache typ vals w st
  | _ => (cache, .val (st, 0, some (.base .invalidType)))

/-- A `bytes.Buffer` as an `io.Writer`: appends everything, never errs. -/
def bufWriter : Writer (List Nat) :=
  ⟨fun s bs => (s ++ bs, bs.length, none)⟩

/-- A `bytes.Buffer` as an `io.Reader`: yields up to the requested count
(short reads carry no error); reading a positive count from an empty
buffer is `io.EOF`. -/
def bufReader : Reader (List Nat) :=
  ⟨fun s k => (s.drop k, s.take k, if s.isEmpty ∧ 0 < k then some (.base (.ioFail 0)) else none)⟩

/-- `Marshal`: marshal into a fresh `bytes.Buffer`, returning its contents
(`nil` with the error on failure). -/
def Marshal (cache : Cache marshaler) (s : GoValue) :
    Cache marshaler × POr (Except GoErr (List Nat)) :=
  match MarshalToWriter cache s bufWriter [] with
  | (c', .panic m) => (c', .panic m)
  | (c', .val (_, _, some e)) => (c', .val (.error e))
  | (c', .val (buf, _, none)) => (c', .val (.ok buf))

/-- The package-private `unmarshal(r, value)`: fetch or build the plan,
then run it against the source. -/
def unmarshalValue (cache : Cache unmarshaler) (typ : List Field)
    (vals : List FieldValue) (r : Reader σ) (st : σ) :
    Cache unmarshaler × POr (σ × List FieldValue × Nat × Option GoErr) :=
  match getUnmarshaler cache typ with
  | (c', .error e) => (c', .val (st, vals, 0, some e))
  | (c', .ok u) => (c', runUnmarshaler u.plan vals r st 0)

/-- `UnmarshalFromReader`: the argument must be a pointer whose target is a
struct (else `ErrInvalidType`); decode into the struct's current fields.
The returned `GoValue` carries the mutated record. -/
def UnmarshalFromReader (cache : Cache unmarshaler) (r : Reader σ)
    (s : GoValue) (st : σ) :
    Cache unmarshaler × POr (σ × GoValue × Nat × Option GoErr) :=
  match s with
  | .ptr (.structV typ vals) =>
    match unmarshalValue cache typ vals r st with
    | (c', .panic m) => (c', .panic m)
    | (c', .val (st', vals', n, err)) =>
      (c', .val (st', .ptr (.structV typ vals'), n, err))
  | _ => (cache, .val (st, s, 0, some (.base .invalidType)))

/-- `Unmarshal`: wrap the data in a `bytes.Buffer` and decode; only the
error is returned to the caller (with the mutated record). -/
def Unmarshal (cache : Cache unmarshaler) (data : List Nat) (s : GoValue) :
    Cache unmarshaler × POr (GoValue × Option GoErr) :=
  match UnmarshalFromReader cache bufReader s data with
  | (c', .panic m) => (c', .panic m)
  | (c', .val (_, s', _, err)) => (c', .val (s', err))

/-- The kinds the field-operation factory accepts: the four unsigned
widths, and arrays/slices of byte elements (mirrors the checks in
`newMarshalFunc`/`newUnmarshalFunc`). -/
def kindSupported : GoKind → Bool
  | .uint8 | .uint16 | .uint32 | .uint64 => true
  | .array elem _ => elem = .uint8
  | .slice elem => elem = .uint8
  | _ => false

/-- Kinds on which `fieldLen` (in `struct_len.go`) errors: everything that
is neither an unsigned width nor an array/slice of any element kind. -/
def scalarUnsupported : GoKind → Bool
  | .uint8 | .uint16 | .uint32 | .uint64 => false
  | .array _ _ | .slice _ => false
  | _ => true

/-- Well-typedness of one runtime value for a field kind, as Go's type
system guarantees it: an unsigned field holds a `Nat` below `2^width`, a
byte array of type length `n` holds exactly `n` bytes, a byte slice holds
bytes.  (Only the supported kinds admit a fitting value.) -/
def fits : GoKind → FieldValue → Bool
  | .uint8, .uint v => v < 2 ^ 8
  | .uint16, .uint v => v < 2 ^ 16
  | .uint32, .uint v => v < 2 ^ 32
  | .uint64, .uint v => v < 2 ^ 64
  | .array elem n, .bytes bs => elem = .uint8 ∧ bs.length = n ∧ bs.all (· < 256)
  | .slice elem, .bytes bs => elem = .uint8 ∧ bs.all (· < 256)
  | _, _ => false

/-- Pointwise well-typedness of a record's values: same length as the
field list, and every exported field's value fits its kind (unexported
fields are invisible to the codec, so their values are unconstrained). -/
def recFits : List Field → List FieldValue → Bool
  | [], [] => true
  | f :: fs, v :: vs => (f.pkgPath ≠ "" || fits f.kind v) && recFits fs vs
  | _, _ => false

/-- Every field of the record type is exported. -/
def allExported (typ : List Field) : Bool :=
  typ.all (·.pkgPath = "")

/-- Destination pre-sizing for one field: a byte-sequence destination has
the same current length as the source's value (integer fields are
unconstrained). -/
def seqLenOk : GoKind → FieldValue → FieldValue → Bool
  | .array _ _, .bytes bs, .bytes cs => bs.length = cs.length
  | .slice _, .bytes bs, .bytes cs => bs.length = cs.length
  | .array _ _, _, _ => false
  | .slice _, _, _ => false
  | _, _, _ => true

/-- Destination pre-sizing for a whole record: each byte-sequence field of
the destination has the same current length as the source's (what a caller
must arrange before decoding). -/
def seqLensMatch : List Field → List FieldValue → List FieldValue → Bool
  | [], _, _ => true
  | _ :: _, [], _ => false
  | _ :: _, _, [] => false
  | f :: fs, v :: vs, d :: ds => seqLenOk f.kind v d && seqLensMatch fs vs ds

/-- Shape adequacy of one value for `fieldLen`: an array/slice field's
value supports `reflect`'s `Len` (is a sequence value); scalar fields are
unconstrained (their values are never touched by `fieldLen`). -/
def seqShapeOk : GoKind → FieldValue → Bool
  | .array _ _, .bytes _ => true
  | .array _ _, .nonBytes _ => true
  | .slice _, .bytes _ => true
  | .slice _, .nonBytes _ => true
  | .array _ _, _ => false
  | .slice _, _ => false
  | _, _ => true

/-- Shape adequacy for `structLen`: each exported field's value is
adequate for `fieldLen`, so it cannot panic. -/
def lenShapeOk : List Field → List FieldValue → Bool
  | [], [] => true
  | f :: fs, v :: vs => (f.pkgPath ≠ "" || seqShapeOk f.kind v) && lenShapeOk fs vs
  | _, _ => false

/-- Did the `Except` succeed? -/
def exOk : Except ε α → Bool
  | .ok _ => true
  | .error _ => false

/-- Is the token one of the byte-order tokens `be`/`le`? -/
def isOrderTok (l : String) : Bool :=
  l = "be" ∨ l = "le"

/-- The number of byte-order tokens among the tag's tokens. -/
def ordCount (ls : List String) : Nat :=
  (ls.filter isOrderTok).length

/-- Does the token list contain a non-empty token other than `be`/`le`? -/
def badTok (ls : List String) : Bool :=
  ls.any (fun l => l ≠ "" && !isOrderTok l)

/-- The marshal cache only holds plans that `newMarshaler` built for their
type — the invariant every execution maintains (plans enter the cache only
through `getMarshaler`'s publish step). -/
def MCoherent (c : Cache marshaler) : Prop :=
  ∀ t m, cacheLoad c t = some m → newMarshaler t = .ok m

/-- The unmarshal cache analogue of `MCoherent`. -/
def UCoherent (c : Cache unmarshaler) : Prop :=
  ∀ t u, cacheLoad c t = some u → newUnmarshaler t = .ok u

/-- The byte order `newFieldTag` resolves for a field (`none` when tag
resolution fails or yields no order). -/
def resolvedEndian (f : Field) : Option ByteOrder :=
  match newFieldTag f.name f.tag (parseUintOptions f.kind) with
  | .ok t => t.endian
  | .error _ => none

/-- Modelled from the spec: the wire bytes of one field (§4.2 encode
semantics) — `U8` one raw byte, `U16/U32/U64` the fixed-width encoding in
the resolved byte order, byte sequences verbatim. -/
def fieldEnc (endian : Option ByteOrder) : GoKind → FieldValue → List Nat
  | .uint8, .uint v => [v % 256]
  | .uint16, .uint v => (endian.map (orderPut · 2 v)).getD []
  | .uint32, .uint v => (endian.map (orderPut · 4 v)).getD []
  | .uint64, .uint v => (endian.map (orderPut · 8 v)).getD []
  | .array _ _, .bytes bs => bs
  | .slice _, .bytes bs => bs
  | _, _ => []

/-- Modelled from the spec: the whole record's wire format — the
concatenation of each exported field's encoding, in declaration order,
with no header or padding (§6). -/
def encFields : List Field → List FieldValue → List Nat
  | [], _ => []
  | _ :: _, [] => []
  | f :: fs, v :: vs =>
    (if f.pkgPath ≠ "" then [] else fieldEnc (resolvedEndian f) f.kind v) ++
      encFields fs vs

/-- A sink that accepts all but one of the offered bytes, without error. -/
def shortWriter : Writer Unit :=
  ⟨fun _ bs => ((), bs.length - 1, none)⟩

/-- A sink that always fails with the underlying I/O error `code`. -/
def failWriter (code : Nat) : Writer Unit :=
  ⟨fun _ _ => ((), 0, some (.base (.ioFail code)))⟩

/-- A source that yields all but one of the requested bytes (as zeros),
without error. -/
def shortReader : Reader Unit :=
  ⟨fun _ k => ((), List.replicate (k - 1) 0, none)⟩

/-- A source that always fails with the underlying I/O error `code`. -/
def failReader (code : Nat) : Reader Unit :=
  ⟨fun _ _ => ((), [], some (.base (.ioFail code)))⟩

/-- A sink with a byte budget: it records the accepted bytes and accepts at
most the remaining budget, without error. -/
def cappedWriter : Writer (List Nat × Nat) :=
  ⟨fun s bs =>
    let k := min bs.length s.2
    ((s.1 ++ bs.take k, s.2 - k), k, none)⟩

/-- Extract the marshaler from a build known to succeed (dummy fallback). -/
def fmGet : Except GoErr fieldMarshaler → fieldMarshaler
  | .ok fm => fm
  | .error _ => ⟨⟨"", .uint8, "", ""⟩, ⟨none⟩, fun _ _ s => .val (s, 0, none)⟩

/-- Extract the unmarshaler from a build known to succeed (dummy fallback). -/
def fuGet : Except GoErr fieldUnmarshaler → fieldUnmarshaler
  | .ok fu => fu
  | .error _ => ⟨⟨"", .uint8, "", ""⟩, ⟨none⟩, fun v _ s => .val (s, v, 0, none)⟩

/-- Extract the marshaler plan from a build known to succeed. -/
def mGet : Except GoErr marshaler → marshaler
  | .ok m => m
  | .error _ => ⟨[]⟩

/-- Extract the unmarshaler plan from a build known to succeed. -/
def uGet : Except GoErr unmarshaler → unmarshaler
  | .ok u => u
  | .error _ => ⟨[]⟩

/-- The spec's C6 example record type: `A: U8`, `B: U16` little-endian. -/
def exTyp : List Field :=
  [⟨"A", .uint8, "", ""⟩, ⟨"B", .uint16, "le", ""⟩]

/-- The spec's C6 example record value `{A:1, B:0x0203}`. -/
def exVals : List FieldValue :=
  [.uint 1, .uint 0x0203]

/-- A concrete record type exercising every supported kind family. -/
def rtTyp : List Field :=
  [⟨"A", .array .uint8 2, "", ""⟩, ⟨"B", .uint8, "", ""⟩,
   ⟨"C", .uint32, "be", ""⟩, ⟨"D", .slice .uint8, "", ""⟩]

/-- A source value for `rtTyp`. -/
def rtSrc : List FieldValue :=
  [.bytes [5, 6], .uint 9, .uint 0x01020304, .bytes [7, 8, 9]]

/-- A pre-sized destination value for `rtTyp` (slice length 3, as in the
source). -/
def rtDst : List FieldValue :=
  [.bytes [0, 0], .uint 0, .uint 0, .bytes [0, 0, 0]]

theorem leBytes_length (w v : Nat) : (leBytes w v).length = w := by
  induction w generalizing v with
  | zero => rfl
  | succ w ih => simp [leBytes, ih]

theorem orderPut_length (e : ByteOrder) (w v : Nat) :
    (orderPut e w v).length = w := by
  cases e <;> simp [orderPut, beBytes, leBytes_length]

theorem leToNat_leBytes (w v : Nat) : leToNat (leBytes w v) = v % 2 ^ (8 * w) := by
  induction w generalizing v with
  | zero => simp [leBytes, leToNat, Nat.mod_one]
  | succ w ih =>
    have h256 : (2 : Nat) ^ (8 * (w + 1)) = 256 * 2 ^ (8 * w) := by
      rw [Nat.mul_succ, Nat.pow_add]
      ring
    simp only [leBytes, leToNat, ih, h256, Nat.mod_mul]
    omega

theorem orderGet_orderPut (e : ByteOrder) (w v : Nat) :
    orderGet e (orderPut e w v) = v % 2 ^ (8 * w) := by
  cases e with
  | be => simp [orderGet, orderPut, beToNat, beBytes, List.reverse_reverse, leToNat_leBytes]
  | le => simp [orderGet, orderPut, leToNat_leBytes]

theorem putUint_buf_one (ui : Nat) (endian : Option ByteOrder) (acc : List Nat) :
    putUint ui endian 1 bufWriter acc = .val (acc ++ [ui % 256], 1, none) := by
  simp [putUint, putUintWrite, bufWriter]

theorem putUint_buf_multi (ui : Nat) (e : ByteOrder) (acc : List Nat) (bitSize : Nat)
    (h : bitSize = 2 ∨ bitSize = 4 ∨ bitSize = 8) :
    putUint ui (some e) bitSize bufWriter acc =
      .val (acc ++ orderPut e bitSize ui, bitSize, none) := by
  rcases h with h | h | h <;> subst h <;>
    simp [putUint, putUintWrite, bufWriter, orderPut_length]

theorem newFieldTag_endian_some (n tag : String) (uo : uintOptions) (t : fieldTag)
    (h : newFieldTag n tag (some uo) = .ok t) (hne : uo.NeedEndian = true) :
    ∃ e, t.endian = some e := by
  unfold newFieldTag at h
  cases hl : tagLoop n (stringsSplitComma tag) none with
  | error e => simp [hl] at h
  | ok e0 =>
    simp only [hl] at h
    split at h
    · exact Except.noConfusion h
    · rename_i hcond
      cases h
      cases e0 with
      | none => exact absurd ⟨by simp [hne], rfl⟩ hcond
      | some e => exact ⟨e, rfl⟩

theorem newFieldMarshaler_ok_parts (f : Field) (fm : fieldMarshaler)
    (h : newFieldMarshaler f = .ok fm) :
    newFieldTag f.name f.tag (parseUintOptions f.kind) = .ok fm.tag ∧
      newMarshalFunc f (parseUintOptions f.kind) fm.tag = .ok fm.marshalFn ∧
      fm.field = f := by
  simp only [newFieldMarshaler] at h
  cases htag : newFieldTag f.name f.tag (parseUintOptions f.kind) with
  | error e => simp only [htag] at h; exact Except.noConfusion h
  | ok t =>
    simp only [htag] at h
    cases hfn : newMarshalFunc f (parseUintOptions f.kind) t with
    | error e => simp only [hfn] at h; exact Except.noConfusion h
    | ok fn =>
      simp only [hfn] at h
      cases h
      exact ⟨rfl, hfn, rfl⟩

theorem newFieldUnmarshaler_ok_parts (f : Field) (fu : fieldUnmarshaler)
    (h : newFieldUnmarshaler f = .ok fu) :
    newFieldTag f.name f.tag (parseUintOptions f.kind) = .ok fu.tag ∧
      newUnmarshalFunc f (parseUintOptions f.kind) fu.tag = .ok fu.unmarshalFn ∧
      fu.field = f := by
  simp only [newFieldUnmarshaler] at h
  cases htag : newFieldTag f.name f.tag (parseUintOptions f.kind) with
  | error e => simp only [htag] at h; exact Except.noConfusion h
  | ok t =>
    simp only [htag] at h
    cases hfn : newUnmarshalFunc f (parseUintOptions f.kind) t with
    | error e => simp only [hfn] at h; exact Except.noConfusion h
    | ok fn =>
      simp only [hfn] at h
      cases h
      exact ⟨rfl, hfn, rfl⟩

theorem resolvedEndian_of_tag (f : Field) (t : fieldTag)
    (h : newFieldTag f.name f.tag (parseUintOptions f.kind) = .ok t) :
    resolvedEndian f = t.endian := by
  unfold resolvedEndian
  rw [h]

theorem fieldMarshal_buf (f : Field) (v : FieldValue)
    (hv : fits f.kind v = true) (acc : List Nat) :
    match newFieldMarshaler f with
    | .ok fm => fm.marshalFn v bufWriter acc =
        .val (acc ++ fieldEnc fm.tag.endian f.kind v,
          (fieldEnc fm.tag.endian f.kind v).length, none)
    | .error _ => True := by
  simp only [newFieldMarshaler]
  cases htag : newFieldTag f.name f.tag (parseUintOptions f.kind) with
  | error e => simp
  | ok t =>
    cases hk : f.kind with
    | uint8 =>
      cases v <;> rw [hk] at hv <;> simp [fits] at hv
      rename_i n
      rw [hk] at htag
      simp [newMarshalFunc, hk, parseUintOptions, fieldEnc, putUint_buf_one]
    | uint16 =>
      cases v <;> rw [hk] at hv <;> simp [fits] at hv
      rename_i n
      rw [hk] at htag
      simp only [parseUintOptions] at htag
      obtain ⟨e, he⟩ := newFieldTag_endian_some _ _ _ _ htag rfl
      simp [newMarshalFunc, hk, parseUintOptions, fieldEnc, he,
        putUint_buf_multi _ e acc 2 (Or.inl rfl), orderPut_length]
    | uint32 =>
      cases v <;> rw [hk] at hv <;> simp [fits] at hv
      rename_i n
      rw [hk] at htag
      simp only [parseUintOptions] at htag
      obtain ⟨e, he⟩ := newFieldTag_endian_some _ _ _ _ htag rfl
      simp [newMarshalFunc, hk, parseUintOptions, fieldEnc, he,
        putUint_buf_multi _ e acc 4 (Or.inr (Or.inl rfl)), orderPut_length]
    | uint64 =>
      cases v <;> rw [hk] at hv <;> simp [fits] at hv
      rename_i n
      rw [hk] at htag
      simp only [parseUintOptions] at htag
      obtain ⟨e, he⟩ := newFieldTag_endian_some _ _ _ _ htag rfl
      simp [newMarshalFunc, hk, parseUintOptions, fieldEnc, he,
        putUint_buf_multi _ e acc 8 (Or.inr (Or.inr rfl)), orderPut_length]
    | int8 => rw [hk] at hv; cases v <;> simp [fits] at hv
    | int16 => rw [hk] at hv; cases v <;> simp [fits] at hv
    | int32 => rw [hk] at hv; cases v <;> simp [fits] at hv
    | int64 => rw [hk] at hv; cases v <;> simp [fits] at hv
    | array elem n =>
      cases v <;> rw [hk] at hv <;> simp [fits] at hv
      rename_i bs
      obtain ⟨helem, -, -⟩ := hv
      subst helem
      simp [newMarshalFunc, hk, seqMarshalOp, bufWriter, fieldEnc]
    | slice elem =>
      cases v <;> rw [hk] at hv <;> simp [fits] at hv
      rename_i bs
      obtain ⟨helem, -⟩ := hv
      subst helem
      simp [newMarshalFunc, hk, seqMarshalOp, bufWriter, fieldEnc]

theorem recFits_length (fields : List Field) (vals : List FieldValue)
    (h : recFits fields vals = true) : vals.length = fields.length := by
  induction fields generalizing vals with
  | nil => cases vals with
    | nil => rfl
    | cons v vs => simp [recFits] at h
  | cons f fs ih =>
    cases vals with
    | nil => simp [recFits] at h
    | cons v vs =>
      simp only [recFits, Bool.and_eq_true] at h
      simp [ih vs h.2]

theorem runMarshaler_buf (fields : List Field) :
    ∀ (i : Nat) (plan : List (Nat × fieldMarshaler)) (fullVals : List FieldValue),
      newMarshalerAux i fields = .ok plan →
      fullVals.length = i + fields.length →
      recFits fields (fullVals.drop i) = true →
      ∀ (acc : List Nat) (n₀ : Nat),
        runMarshaler plan fullVals bufWriter acc n₀ =
          .val (acc ++ encFields fields (fullVals.drop i),
            n₀ + (encFields fields (fullVals.drop i)).length, none) := by
  induction fields with
  | nil =>
    intro i plan fullVals hplan hlen hfit acc n₀
    simp only [newMarshalerAux] at hplan
    cases hplan
    simp [runMarshaler, encFields]
  | cons f fs ih =>
    intro i plan fullVals hplan hlen hfit acc n₀
    have hi : i < fullVals.length := by
      simp only [List.length_cons] at hlen
      omega
    have hdrop : fullVals.drop i = fullVals[i] :: fullVals.drop (i + 1) :=
      List.drop_eq_getElem_cons hi
    rw [hdrop] at hfit ⊢
    simp only [recFits, Bool.and_eq_true] at hfit
    obtain ⟨hfit1, hfit2⟩ := hfit
    by_cases hexp : f.pkgPath = ""
    · rw [newMarshalerAux] at hplan
      rw [if_neg (by simp [hexp])] at hplan
      cases hfm : newFieldMarshaler f with
      | error e => rw [hfm] at hplan; exact Except.noConfusion hplan
      | ok fm =>
        rw [hfm] at hplan
        cases hrest : newMarshalerAux (i + 1) fs with
        | error e => rw [hrest] at hplan; exact Except.noConfusion hplan
        | ok rest =>
          rw [hrest] at hplan
          cases hplan
          have hv : fits f.kind fullVals[i] = true := by
            rcases Bool.or_eq_true_iff.mp hfit1 with h | h
            · simp [hexp] at h
            · exact h
          have hfb := fieldMarshal_buf f fullVals[i] hv acc
          rw [hfm] at hfb
          obtain ⟨htag, -, -⟩ := newFieldMarshaler_ok_parts f fm hfm
          have hre : resolvedEndian f = fm.tag.endian :=
            resolvedEndian_of_tag f fm.tag htag
          have ihr := ih (i + 1) rest fullVals hrest
            (by simp only [List.length_cons] at hlen; omega) hfit2
            (acc ++ fieldEnc fm.tag.endian f.kind fullVals[i])
            (n₀ + (fieldEnc fm.tag.endian f.kind fullVals[i]).length)
          simp only [runMarshaler, List.getElem?_eq_getElem hi]
          rw [hfb]
          simp only [ihr]
          simp [encFields, hexp, hre, List.append_assoc, Nat.add_assoc]
    · rw [newMarshalerAux] at hplan
      rw [if_pos (by simp [hexp])] at hplan
      have ihr := ih (i + 1) plan fullVals hplan
        (by simp only [List.length_cons] at hlen; omega) hfit2 acc n₀
      rw [ihr]
      simp [encFields, hexp]

theorem getMarshaler_coherent (c : Cache marshaler) (typ : List Field)
    (hc : MCoherent c) : (getMarshaler c typ).2 = newMarshaler typ := by
  unfold getMarshaler
  cases hl : cacheLoad c typ with
  | some m => simp [hc typ m hl]
  | none =>
    cases hn : newMarshaler typ with
    | error e => simp
    | ok m => simp [cacheLoadOrStore, hl]

theorem getMarshaler_error (c : Cache marshaler) (typ : List Field)
    (hc : MCoherent c) (e : GoErr) (hn : newMarshaler typ = .error e) :
    getMarshaler c typ = (c, .error e) := by
  unfold getMarshaler
  cases hl : cacheLoad c typ with
  | some m => rw [hc typ m hl] at hn; exact Except.noConfusion hn
  | none => simp [hn]

theorem getUnmarshaler_coherent (c : Cache unmarshaler) (typ : List Field)
    (hc : UCoherent c) : (getUnmarshaler c typ).2 = newUnmarshaler typ := by
  unfold getUnmarshaler
  cases hl : cacheLoad c typ with
  | some u => simp [hc typ u hl]
  | none =>
    cases hn : newUnmarshaler typ with
    | error e => simp
    | ok u => simp [cacheLoadOrStore, hl]

theorem getUnmarshaler_error (c : Cache unmarshaler) (typ : List Field)
    (hc : UCoherent c) (e : GoErr) (hn : newUnmarshaler typ = .error e) :
    getUnmarshaler c typ = (c, .error e) := by
  unfold getUnmarshaler
  cases hl : cacheLoad c typ with
  | some u => rw [hc typ u hl] at hn; exact Except.noConfusion hn
  | none => simp [hn]

theorem marshalToWriter_buf (c : Cache marshaler) (typ : List Field)
    (vals : List FieldValue) (hc : MCoherent c) (m : marshaler)
    (hm : newMarshaler typ = .ok m) (hfit : recFits typ vals = true) :
    (MarshalToWriter c (.structV typ vals) bufWriter []).2 =
      .val (encFields typ vals, (encFields typ vals).length, none) := by
  have hget : (getMarshaler c typ).2 = newMarshaler typ := getMarshaler_coherent c typ hc
  obtain ⟨plan⟩ := m
  have hplan : newMarshalerAux 0 typ = .ok plan := by
    unfold newMarshaler at hm
    cases hx : newMarshalerAux 0 typ with
    | error e => rw [hx] at hm; exact Except.noConfusion hm
    | ok p => rw [hx] at hm; cases hm; rfl
  have hrun := runMarshaler_buf typ 0 plan vals hplan
    (by simpa using recFits_length typ vals (by simpa using hfit)) (by simpa using hfit) [] 0
  simp only [List.drop_zero] at hrun
  simp only [MarshalToWriter, marshalValue]
  cases hg : getMarshaler c typ with
  | mk c2 r =>
    rw [hg] at hget
    simp only at hget
    rw [hget.trans hm]
    simp only [hrun]
    simp

theorem Marshal_encFields (c : Cache marshaler) (typ : List Field)
    (vals : List FieldValue) (hc : MCoherent c) (m : marshaler)
    (hm : newMarshaler typ = .ok m) (hfit : recFits typ vals = true) :
    (Marshal c (.structV typ vals)).2 = .val (.ok (encFields typ vals)) := by
  have h := marshalToWriter_buf c typ vals hc m hm hfit
  unfold Marshal
  cases hg : MarshalToWriter c (.structV typ vals) bufWriter [] with
  | mk c2 r =>
    rw [hg] at h
    simp only at h
    subst h
    simp

theorem fieldLen_enc (f : Field) (v : FieldValue) (hv : fits f.kind v = true)
    (t : fieldTag) (htag : newFieldTag f.name f.tag (parseUintOptions f.kind) = .ok t) :
    fieldLen f v = .val ((fieldEnc t.endian f.kind v).length, none) := by
  cases hk : f.kind with
  | uint8 =>
    cases v <;> rw [hk] at hv <;> simp [fits] at hv
    simp [fieldLen, hk, fieldEnc]
  | uint16 =>
    cases v <;> rw [hk] at hv <;> simp [fits] at hv
    rw [hk] at htag
    simp only [parseUintOptions] at htag
    obtain ⟨e, he⟩ := newFieldTag_endian_some _ _ _ _ htag rfl
    simp [fieldLen, hk, fieldEnc, he, orderPut_length]
  | uint32 =>
    cases v <;> rw [hk] at hv <;> simp [fits] at hv
    rw [hk] at htag
    simp only [parseUintOptions] at htag
    obtain ⟨e, he⟩ := newFieldTag_endian_some _ _ _ _ htag rfl
    simp [fieldLen, hk, fieldEnc, he, orderPut_length]
  | uint64 =>
    cases v <;> rw [hk] at hv <;> simp [fits] at hv
    rw [hk] at htag
    simp only [parseUintOptions] at htag
    obtain ⟨e, he⟩ := newFieldTag_endian_some _ _ _ _ htag rfl
    simp [fieldLen, hk, fieldEnc, he, orderPut_length]
  | int8 => rw [hk] at hv; cases v <;> simp [fits] at hv
  | int16 => rw [hk] at hv; cases v <;> simp [fits] at hv
  | int32 => rw [hk] at hv; cases v <;> simp [fits] at hv
  | int64 => rw [hk] at hv; cases v <;> simp [fits] at hv
  | array elem n =>
    cases v <;> rw [hk] at hv <;> simp [fits] at hv
    simp [fieldLen, hk, fieldEnc]
  | slice elem =>
    cases v <;> rw [hk] at hv <;> simp [fits] at hv
    simp [fieldLen, hk, fieldEnc]

theorem structLen_enc (fields : List Field) :
    ∀ (i : Nat) (vs : List FieldValue) (plan : List (Nat × fieldMarshaler)),
      newMarshalerAux i fields = .ok plan →
      recFits fields vs = true →
      ∀ acc, structLenAux fields vs acc =
        .val (acc + (encFields fields vs).length, none) := by
  induction fields with
  | nil =>
    intro i vs plan hplan hfit acc
    cases vs with
    | nil => simp [structLenAux, encFields]
    | cons v vtail => simp [recFits] at hfit
  | cons f fs ih =>
    intro i vs plan hplan hfit acc
    cases vs with
    | nil => simp [recFits] at hfit
    | cons v vtail =>
      simp only [recFits, Bool.and_eq_true] at hfit
      obtain ⟨hfit1, hfit2⟩ := hfit
      by_cases hexp : f.pkgPath = ""
      · rw [newMarshalerAux] at hplan
        rw [if_neg (by simp [hexp])] at hplan
        cases hfm : newFieldMarshaler f with
        | error e => rw [hfm] at hplan; exact Except.noConfusion hplan
        | ok fm =>
          rw [hfm] at hplan
          cases hrest : newMarshalerAux (i + 1) fs with
          | error e => rw [hrest] at hplan; exact Except.noConfusion hplan
          | ok rest =>
            have hv : fits f.kind v = true := by
              rcases Bool.or_eq_true_iff.mp hfit1 with h | h
              · simp [hexp] at h
              · exact h
            obtain ⟨htag, -, -⟩ := newFieldMarshaler_ok_parts f fm hfm
            have hre : resolvedEndian f = fm.tag.endian :=
              resolvedEndian_of_tag f fm.tag htag
            have hfl := fieldLen_enc f v hv fm.tag htag
            simp only [structLenAux, if_neg (by simp [hexp] : ¬f.pkgPath ≠ "")]
            simp only [hfl]
            rw [ih (i + 1) vtail rest hrest hfit2]
            simp [encFields, hexp, hre]
            omega
      · rw [newMarshalerAux] at hplan
        rw [if_pos (by simp [hexp])] at hplan
        simp only [structLenAux, if_pos (by simp [hexp] : f.pkgPath ≠ "")]
        rw [ih (i + 1) vtail plan hplan hfit2]
        simp [encFields, hexp]

theorem Marshal_ok_plan (c : Cache marshaler) (typ : List Field)
    (vals : List FieldValue) (bs : List Nat) (hc : MCoherent c)
    (h : (Marshal c (.structV typ vals)).2 = .val (.ok bs)) :
    ∃ m, newMarshaler typ = .ok m := by
  cases hn : newMarshaler typ with
  | ok m => exact ⟨m, rfl⟩
  | error e =>
    have hge := getMarshaler_error c typ hc e hn
    unfold Marshal MarshalToWriter marshalValue at h
    simp only [hge] at h
    exact absurd h (by simp)

theorem bufReader_exact (xs rest : List Nat) (k : Nat) (hk : xs.length = k) :
    bufReader.read (xs ++ rest) k = (rest, xs, none) := by
  subst hk
  cases xs with
  | nil => simp [bufReader]
  | cons a as => simp [bufReader, List.take_left, List.drop_left]

theorem getUint_buf_one (endian : Option ByteOrder) (b : Nat) (rest : List Nat) :
    getUint endian 1 bufReader (b :: rest) = .val (rest, b % 256, 1, none) := by
  have h := bufReader_exact [b] rest 1 rfl
  simp only [List.cons_append, List.nil_append] at h
  simp [getUint, h]

theorem getUint_buf_multi (e : ByteOrder) (bitSize : Nat)
    (h : bitSize = 2 ∨ bitSize = 4 ∨ bitSize = 8) (v : Nat) (rest : List Nat) :
    getUint (some e) bitSize bufReader (orderPut e bitSize v ++ rest) =
      .val (rest, v % 2 ^ (8 * bitSize), bitSize, none) := by
  have hx := bufReader_exact (orderPut e bitSize v) rest bitSize (orderPut_length e bitSize v)
  rcases h with h | h | h <;> subst h <;>
    simp [getUint, hx, orderPut_length, orderGet_orderPut]

theorem fieldUnmarshal_buf (f : Field) (v d : FieldValue)
    (hv : fits f.kind v = true) (hd : fits f.kind d = true)
    (hsl : seqLenOk f.kind v d = true) (rest : List Nat) :
    match newFieldUnmarshaler f with
    | .ok fu => fu.unmarshalFn d bufReader (fieldEnc fu.tag.endian f.kind v ++ rest) =
        .val (rest, v, (fieldEnc fu.tag.endian f.kind v).length, none)
    | .error _ => True := by
  simp only [newFieldUnmarshaler]
  cases htag : newFieldTag f.name f.tag (parseUintOptions f.kind) with
  | error e => simp
  | ok t =>
    cases hk : f.kind with
    | uint8 =>
      cases v <;> rw [hk] at hv <;> simp [fits] at hv
      cases d <;> rw [hk] at hd <;> simp [fits] at hd
      rename_i n m
      simp [newUnmarshalFunc, hk, parseUintOptions, fieldEnc,
        getUint_buf_one, Nat.mod_eq_of_lt hv]
    | uint16 =>
      cases v <;> rw [hk] at hv <;> simp [fits] at hv
      cases d <;> rw [hk] at hd <;> simp [fits] at hd
      rename_i n m
      rw [hk] at htag
      simp only [parseUintOptions] at htag
      obtain ⟨e, he⟩ := newFieldTag_endian_some _ _ _ _ htag rfl
      have hm : n % 2 ^ (8 * 2) = n := Nat.mod_eq_of_lt (by omega)
      simp [newUnmarshalFunc, hk, parseUintOptions, fieldEnc, he,
        getUint_buf_multi e 2 (Or.inl rfl), hm, orderPut_length, hv]
    | uint32 =>
      cases v <;> rw [hk] at hv <;> simp [fits] at hv
      cases d <;> rw [hk] at hd <;> simp [fits] at hd
      rename_i n m
      rw [hk] at htag
      simp only [parseUintOptions] at htag
      obtain ⟨e, he⟩ := newFieldTag_endian_some _ _ _ _ htag rfl
      have hm : n % 2 ^ (8 * 4) = n := Nat.mod_eq_of_lt (by omega)
      simp [newUnmarshalFunc, hk, parseUintOptions, fieldEnc, he,
        getUint_buf_multi e 4 (Or.inr (Or.inl rfl)), hm, orderPut_length, hv]
    | uint64 =>
      cases v <;> rw [hk] at hv <;> simp [fits] at hv
      cases d <;> rw [hk] at hd <;> simp [fits] at hd
      rename_i n m
      rw [hk] at htag
      simp only [parseUintOptions] at htag
      obtain ⟨e, he⟩ := newFieldTag_endian_some _ _ _ _ htag rfl
      have hm : n % 2 ^ (8 * 8) = n := Nat.mod_eq_of_lt (by omega)
      simp [newUnmarshalFunc, hk, parseUintOptions, fieldEnc, he,
        getUint_buf_multi e 8 (Or.inr (Or.inr rfl)), hm, orderPut_length, hv]
    | int8 => rw [hk] at hv; cases v <;> simp [fits] at hv
    | int16 => rw [hk] at hv; cases v <;> simp [fits] at hv
    | int32 => rw [hk] at hv; cases v <;> simp [fits] at hv
    | int64 => rw [hk] at hv; cases v <;> simp [fits] at hv
    | array elem n =>
      cases v <;> rw [hk] at hv <;> simp [fits] at hv
      cases d <;> rw [hk] at hd <;> simp [fits] at hd
      rename_i bs cs
      obtain ⟨helem, hblen, hball⟩ := hv
      subst helem
      rw [hk] at hsl
      simp only [seqLenOk, decide_eq_true_eq] at hsl
      have hmap : bs.map (· % 256) = bs := by
        rw [List.map_congr_left fun a ha => Nat.mod_eq_of_lt (hball a ha)]
        exact List.map_id bs
      have hread := bufReader_exact bs rest cs.length hsl
      simp [newUnmarshalFunc, hk, seqUnmarshalOp, fieldEnc, hread, hsl, hmap]
    | slice elem =>
      cases v <;> rw [hk] at hv <;> simp [fits] at hv
      cases d <;> rw [hk] at hd <;> simp [fits] at hd
      rename_i bs cs
      obtain ⟨helem, hball⟩ := hv
      subst helem
      rw [hk] at hsl
      simp only [seqLenOk, decide_eq_true_eq] at hsl
      have hmap : bs.map (· % 256) = bs := by
        rw [List.map_congr_left fun a ha => Nat.mod_eq_of_lt (hball a ha)]
        exact List.map_id bs
      have hread := bufReader_exact bs rest cs.length hsl
      simp [newUnmarshalFunc, hk, seqUnmarshalOp, fieldEnc, hread, hsl, hmap]

theorem take_succ_set (l : List FieldValue) (i : Nat) (a : FieldValue)
    (h : i < l.length) : (l.set i a).take (i + 1) = l.take i ++ [a] := by
  induction l generalizing i with
  | nil => simp at h
  | cons x xs ih =>
    cases i with
    | zero => simp
    | succ n =>
      simp only [List.set, List.take_succ_cons, ih n (by simpa using h)]
      simp

theorem runUnmarshaler_buf (fields : List Field) :
    ∀ (i : Nat) (uplan : List (Nat × fieldUnmarshaler))
      (dstFull vs : List FieldValue),
      newUnmarshalerAux i fields = .ok uplan →
      allExported fields = true →
      dstFull.length = i + fields.length →
      recFits fields vs = true →
      recFits fields (dstFull.drop i) = true →
      seqLensMatch fields vs (dstFull.drop i) = true →
      ∀ (rest : List Nat) (n₀ : Nat),
        runUnmarshaler uplan dstFull bufReader (encFields fields vs ++ rest) n₀ =
          .val (rest, dstFull.take i ++ vs,
            n₀ + (encFields fields vs).length, none) := by
  induction fields with
  | nil =>
    intro i uplan dstFull vs hplan hexp hlen hfitv hfitd hsl rest n₀
    cases vs with
    | cons v vtail => simp [recFits] at hfitv
    | nil =>
      simp only [newUnmarshalerAux] at hplan
      cases hplan
      simp only [runUnmarshaler, encFields, List.nil_append]
      have : dstFull.take i = dstFull := List.take_of_length_le (by simp at hlen; omega)
      simp [this]
  | cons f fs ih =>
    intro i uplan dstFull vs hplan hexp hlen hfitv hfitd hsl rest n₀
    have hi : i < dstFull.length := by
      simp only [List.length_cons] at hlen
      omega
    have hdrop : dstFull.drop i = dstFull[i] :: dstFull.drop (i + 1) :=
      List.drop_eq_getElem_cons hi
    cases vs with
    | nil => simp [recFits] at hfitv
    | cons v vtail =>
      simp only [allExported, List.all_cons, Bool.and_eq_true, decide_eq_true_eq] at hexp
      obtain ⟨hexpf, hexps⟩ := hexp
      rw [hdrop] at hfitd hsl
      simp only [recFits, Bool.and_eq_true] at hfitv hfitd
      simp only [seqLensMatch, Bool.and_eq_true] at hsl
      obtain ⟨hfv1, hfv2⟩ := hfitv
      obtain ⟨hfd1, hfd2⟩ := hfitd
      obtain ⟨hsl1, hsl2⟩ := hsl
      have hv : fits f.kind v = true := by
        rcases Bool.or_eq_true_iff.mp hfv1 with h | h
        · simp [hexpf] at h
        · exact h
      have hd : fits f.kind dstFull[i] = true := by
        rcases Bool.or_eq_true_iff.mp hfd1 with h | h
        · simp [hexpf] at h
        · exact h
      rw [newUnmarshalerAux] at hplan
      rw [if_neg (by simp [hexpf])] at hplan
      cases hfu : newFieldUnmarshaler f with
      | error e => rw [hfu] at hplan; exact Except.noConfusion hplan
      | ok fu =>
        rw [hfu] at hplan
        cases hrest : newUnmarshalerAux (i + 1) fs with
        | error e => rw [hrest] at hplan; exact Except.noConfusion hplan
        | ok urest =>
          rw [hrest] at hplan
          cases hplan
          obtain ⟨htag, -, -⟩ := newFieldUnmarshaler_ok_parts f fu hfu
          have hre : resolvedEndian f = fu.tag.endian :=
            resolvedEndian_of_tag f fu.tag htag
          have hfb := fieldUnmarshal_buf f v dstFull[i] hv hd hsl1
            (encFields fs vtail ++ rest)
          rw [hfu] at hfb
          have ihr := ih (i + 1) urest (dstFull.set i v) vtail hrest hexps
            (by simp only [List.length_set, List.length_cons] at hlen ⊢; omega)
            hfv2
            (by rw [List.drop_set_of_lt _ _ (by omega)]; exact hfd2)
            (by rw [List.drop_set_of_lt _ _ (by omega)]; exact hsl2)
            rest (n₀ + (fieldEnc fu.tag.endian f.kind v).length)
          simp only [runUnmarshaler, List.getElem?_eq_getElem hi]
          have hbuf : encFields (f :: fs) (v :: vtail) ++ rest =
              fieldEnc fu.tag.endian f.kind v ++ (encFields fs vtail ++ rest) := by
            simp [encFields, hexpf, hre, List.append_assoc]
          rw [hbuf, hfb]
          simp only [ihr]
          rw [take_succ_set dstFull i v hi]
          simp [encFields, hexpf, hre, Nat.add_assoc, List.append_assoc]

theorem fieldUn_of_fieldM (f : Field) (fm : fieldMarshaler)
    (h : newFieldMarshaler f = .ok fm) : ∃ fu, newFieldUnmarshaler f = .ok fu := by
  obtain ⟨htag, hfn, -⟩ := newFieldMarshaler_ok_parts f fm h
  simp only [newFieldUnmarshaler]
  rw [htag]
  cases hk : f.kind with
  | uint8 => simp [newUnmarshalFunc, hk]
  | uint16 => simp [newUnmarshalFunc, hk]
  | uint32 => simp [newUnmarshalFunc, hk]
  | uint64 => simp [newUnmarshalFunc, hk]
  | int8 => simp [newMarshalFunc, hk] at hfn
  | int16 => simp [newMarshalFunc, hk] at hfn
  | int32 => simp [newMarshalFunc, hk] at hfn
  | int64 => simp [newMarshalFunc, hk] at hfn
  | array elem n =>
    by_cases he : elem = GoKind.uint8
    · subst he
      simp [newUnmarshalFunc, hk]
    · simp [newMarshalFunc, hk, he] at hfn
  | slice elem =>
    by_cases he : elem = GoKind.uint8
    · subst he
      simp [newUnmarshalFunc, hk]
    · simp [newMarshalFunc, hk, he] at hfn

theorem uplanOfMplan (fields : List Field) : ∀ (i : Nat)
    (plan : List (Nat × fieldMarshaler)),
    newMarshalerAux i fields = .ok plan →
    ∃ uplan, newUnmarshalerAux i fields = .ok uplan := by
  induction fields with
  | nil => intro i plan h; exact ⟨[], rfl⟩
  | cons f fs ih =>
    intro i plan h
    by_cases hexp : f.pkgPath = ""
    · rw [newMarshalerAux] at h
      rw [if_neg (by simp [hexp])] at h
      cases hfm : newFieldMarshaler f with
      | error e => rw [hfm] at h; exact Except.noConfusion h
      | ok fm =>
        rw [hfm] at h
        cases hrest : newMarshalerAux (i + 1) fs with
        | error e => rw [hrest] at h; exact Except.noConfusion h
        | ok rest =>
          obtain ⟨fu, hfu⟩ := fieldUn_of_fieldM f fm hfm
          obtain ⟨urest, hurest⟩ := ih (i + 1) rest hrest
          refine ⟨(i, fu) :: urest, ?_⟩
          rw [newUnmarshalerAux, if_neg (by simp [hexp]), hfu, hurest]
    · rw [newMarshalerAux] at h
      rw [if_pos (by simp [hexp])] at h
      obtain ⟨uplan, hu⟩ := ih (i + 1) plan h
      refine ⟨uplan, ?_⟩
      rw [newUnmarshalerAux, if_pos (by simp [hexp]), hu]

theorem unmarshal_buf_all (uc : Cache unmarshaler) (typ : List Field)
    (src dst : List FieldValue) (huc : UCoherent uc)
    (u : unmarshaler) (hu : newUnmarshaler typ = .ok u)
    (hexp : allExported typ = true)
    (hsrc : recFits typ src = true) (hdst : recFits typ dst = true)
    (hsl : seqLensMatch typ src dst = true) :
    (Unmarshal uc (encFields typ src) (.ptr (.structV typ dst))).2 =
      .val (.ptr (.structV typ src), none) := by
  obtain ⟨uplan⟩ := u
  have huplan : newUnmarshalerAux 0 typ = .ok uplan := by
    unfold newUnmarshaler at hu
    cases hx : newUnmarshalerAux 0 typ with
    | error e => rw [hx] at hu; exact Except.noConfusion hu
    | ok p => rw [hx] at hu; cases hu; rfl
  have hrun := runUnmarshaler_buf typ 0 uplan dst src huplan hexp
    (by simpa using recFits_length typ dst hdst) hsrc (by simpa using hdst)
    (by simpa using hsl) [] 0
  rw [List.append_nil] at hrun
  simp only [List.take_zero, List.nil_append] at hrun
  have hget : (getUnmarshaler uc typ).2 = newUnmarshaler typ :=
    getUnmarshaler_coherent uc typ huc
  rw [hu] at hget
  cases hg : getUnmarshaler uc typ with
  | mk c2 r =>
    rw [hg] at hget
    simp only at hget
    subst hget
    unfold Unmarshal UnmarshalFromReader unmarshalValue
    simp [hg, hrun]

theorem newMarshaler_plan (typ : List Field) (m : marshaler)
    (h : newMarshaler typ = .ok m) : newMarshalerAux 0 typ = .ok m.plan := by
  unfold newMarshaler at h
  cases hx : newMarshalerAux 0 typ with
  | error e => rw [hx] at h; exact Except.noConfusion h
  | ok p => rw [hx] at h; cases h; rfl

/-- C1: for every supported, all-exported record type with well-typed
values, if `Marshal` produces the byte slice `bs`, then `Unmarshal` of `bs`
into a consistently pre-sized destination record of the same type yields a
record equal to the source field by field. -/
theorem c1_roundtrip (mc : Cache marshaler) (uc : Cache unmarshaler)
    (typ : List Field) (src dst : List FieldValue) (bs : List Nat)
    (hmc : MCoherent mc) (huc : UCoherent uc)
    (hexp : allExported typ = true)
    (hsrc : recFits typ src = true) (hdst : recFits typ dst = true)
    (hsl : seqLensMatch typ src dst = true)
    (hm : (Marshal mc (.structV typ src)).2 = .val (.ok bs)) :
    (Unmarshal uc bs (.ptr (.structV typ dst))).2 =
      .val (.ptr (.structV typ src), none) := by
  obtain ⟨m, hplanM⟩ := Marshal_ok_plan mc typ src bs hmc hm
  have henc := Marshal_encFields mc typ src hmc m hplanM hsrc
  rw [hm] at henc
  have hbs : bs = encFields typ src := by
    injection henc with h1
    injection h1
  subst hbs
  obtain ⟨uplan, hup⟩ := uplanOfMplan typ 0 m.plan (newMarshaler_plan typ m hplanM)
  exact unmarshal_buf_all uc typ src dst huc ⟨uplan⟩
    (by unfold newUnmarshaler; rw [hup]) hexp hsrc hdst hsl

/-- Witness for C1: the concrete record `rtSrc` of type `rtTyp` round-trips
through `Marshal`/`Unmarshal` into the pre-sized destination `rtDst`. -/
theorem c1_roundtrip_witness :
    (Unmarshal [] [5, 6, 9, 1, 2, 3, 4, 7, 8, 9] (.ptr (.structV rtTyp rtDst))).2 =
      .val (.ptr (.structV rtTyp rtSrc), none) :=
  c1_roundtrip [] [] rtTyp rtSrc rtDst [5, 6, 9, 1, 2, 3, 4, 7, 8, 9]
    (by intro t m h; simp [cacheLoad] at h)
    (by intro t u h; simp [cacheLoad] at h)
    (by decide) (by decide) (by decide) (by decide) rfl

/-- C2: whenever `Marshal` succeeds on a well-typed record value,
`StructLen` succeeds and returns exactly the length of the marshalled byte
slice (the fixed integer sizes plus the current byte-sequence lengths). -/
theorem c2_structlen_marshal (c : Cache marshaler) (typ : List Field)
    (vals : List FieldValue) (bs : List Nat)
    (hc : MCoherent c) (hfit : recFits typ vals = true)
    (hm : (Marshal c (.structV typ vals)).2 = .val (.ok bs)) :
    StructLen (.structV typ vals) = .val (bs.length, none) := by
  obtain ⟨m, hplanM⟩ := Marshal_ok_plan c typ vals bs hc hm
  have henc := Marshal_encFields c typ vals hc m hplanM hfit
  rw [hm] at henc
  have hbs : bs = encFields typ vals := by
    injection henc with h1
    injection h1
  subst hbs
  have hsl := structLen_enc typ 0 vals m.plan (newMarshaler_plan typ m hplanM) hfit 0
  show structLenAux typ vals 0 = _
  rw [hsl]
  simp

/-- Witness for C2: on the concrete record `{A:1, B:0x0203}` the marshalled
bytes are `[1, 3, 2]` and `StructLen` returns their length 3. -/
theorem c2_structlen_marshal_witness :
    StructLen (.structV exTyp exVals) = .val (3, none) :=
  c2_structlen_marshal [] exTyp exVals [1, 3, 2]
    (by intro t m h; simp [cacheLoad] at h) (by decide) rfl

/-- C6: encoding writes the exported fields in declaration order,
concatenated with no header or padding (`Marshal` produces exactly
`encFields`, the declaration-order concatenation of the per-field
encodings), and on the spec's example record `{A:1, B:0x0203}` with
`A: U8`, `B: U16(le)` the output is exactly `[0x01, 0x03, 0x02]`. -/
theorem c6_wire_order :
    (∀ (c : Cache marshaler) (typ : List Field) (vals : List FieldValue)
      (m : marshaler), MCoherent c → newMarshaler typ = .ok m →
      recFits typ vals = true →
      (Marshal c (.structV typ vals)).2 = .val (.ok (encFields typ vals))) ∧
    (Marshal [] (.structV exTyp exVals)).2 = .val (.ok [1, 3, 2]) := by
  constructor
  · intro c typ vals m hc hm hfit
    exact Marshal_encFields c typ vals hc m hm hfit
  · rfl

/-- Witness for C6: the general declaration-order concatenation statement
instantiated on the concrete example record. -/
theorem c6_wire_order_witness :
    (Marshal [] (.structV exTyp exVals)).2 = .val (.ok (encFields exTyp exVals)) :=
  c6_wire_order.1 [] exTyp exVals (mGet (newMarshaler exTyp))
    (by intro t m h; simp [cacheLoad] at h) rfl (by decide)

/-- C3: once a plan is stored in the cache for a type, every later
lookup-or-build (`getMarshaler`/`getUnmarshaler`) returns that same stored
plan with the cache unchanged; a candidate built later is discarded by
`LoadOrStore` (store-if-absent), which never overwrites any existing
entry. -/
theorem c3_cache_publish_once :
    (∀ (c : Cache marshaler) (typ : List Field) (m : marshaler),
      cacheLoad c typ = some m → getMarshaler c typ = (c, .ok m)) ∧
    (∀ (c : Cache unmarshaler) (typ : List Field) (u : unmarshaler),
      cacheLoad c typ = some u → getUnmarshaler c typ = (c, .ok u)) ∧
    (∀ (c : Cache marshaler) (typ : List Field) (m cand : marshaler),
      cacheLoad c typ = some m → cacheLoadOrStore c typ cand = (c, m, true)) ∧
    (∀ (c : Cache marshaler) (typ typ' : List Field) (x cand : marshaler),
      cacheLoad c typ' = some x →
      cacheLoad (cacheLoadOrStore c typ cand).1 typ' = some x) := by
  refine ⟨?_, ?_, ?_, ?_⟩
  · intro c typ m h
    unfold getMarshaler
    rw [h]
  · intro c typ u h
    unfold getUnmarshaler
    rw [h]
  · intro c typ m cand h
    unfold cacheLoadOrStore
    rw [h]
  · intro c typ typ' x cand h
    unfold cacheLoadOrStore
    cases hl : cacheLoad c typ with
    | some m => exact h
    | none =>
      simp only [cacheLoad]
      by_cases he : typ = typ'
      · subst he
        rw [hl] at h
        exact Option.noConfusion h
      · rw [if_neg he]
        exact h

/-- Witness for C3: with a concrete plan already cached for `exTyp`,
`getMarshaler` returns the stored plan with the cache unchanged, and
`LoadOrStore` discards a freshly built candidate. -/
theorem c3_cache_publish_once_witness :
    getMarshaler [(exTyp, marshaler.mk [])] exTyp =
      ([(exTyp, marshaler.mk [])], .ok (marshaler.mk [])) ∧
    cacheLoadOrStore [(exTyp, marshaler.mk [])] exTyp (mGet (newMarshaler exTyp)) =
      ([(exTyp, marshaler.mk [])], marshaler.mk [], true) :=
  ⟨c3_cache_publish_once.1 [(exTyp, marshaler.mk [])] exTyp (marshaler.mk []) rfl,
   c3_cache_publish_once.2.2.1 [(exTyp, marshaler.mk [])] exTyp (marshaler.mk [])
     (mGet (newMarshaler exTyp)) rfl⟩

theorem tagLoop_err_is (n : String) : ∀ (ls : List String)
    (e : Option ByteOrder) (err : GoErr),
    tagLoop n ls e = .error err → err.is .tagFormat = true := by
  intro ls
  induction ls with
  | nil => intro e err h; exact Except.noConfusion h
  | cons l ls ih =>
    intro e err h
    simp only [tagLoop] at h
    by_cases h1 : l = ""
    · rw [if_pos h1] at h
      exact ih e err h
    · rw [if_neg h1] at h
      by_cases h2 : l = "be" ∨ l = "le"
      · rw [if_pos h2] at h
        cases e with
        | some x => cases h; rfl
        | none => exact ih _ err h
      · rw [if_neg h2] at h
        cases h; rfl

theorem tagLoop_error_iff (n : String) : ∀ (ls : List String)
    (e : Option ByteOrder),
    exOk (tagLoop n ls e) = false ↔
      (badTok ls = true ∨ 2 ≤ ordCount ls + (if e.isSome then 1 else 0)) := by
  intro ls
  induction ls with
  | nil =>
    intro e
    simp only [tagLoop, exOk, badTok, ordCount, List.any_nil, List.filter_nil,
      List.length_nil, Nat.zero_add]
    constructor
    · intro h
      exact Bool.noConfusion h
    · rintro (h | h)
      · exact Bool.noConfusion h
      · split at h <;> omega
  | cons l ls ih =>
    intro e
    simp only [tagLoop]
    by_cases h1 : l = ""
    · rw [if_pos h1, ih e]
      subst h1
      simp [badTok, ordCount, isOrderTok]
    · rw [if_neg h1]
      by_cases h2 : l = "be" ∨ l = "le"
      · rw [if_pos h2]
        have hord : isOrderTok l = true := by simp [isOrderTok, h2]
        cases e with
        | some x =>
          refine iff_of_true rfl (Or.inr ?_)
          simp only [ordCount, List.filter_cons, hord, if_pos, List.length_cons,
            Option.isSome_some, if_true]
          omega
        | none =>
          rw [ih (some (if l = "be" then ByteOrder.be else ByteOrder.le))]
          simp only [badTok, List.any_cons, Bool.or_eq_true, ordCount,
            List.filter_cons, hord, if_true, List.length_cons,
            Option.isSome_some, Option.isSome_none, Bool.and_eq_true,
            Bool.not_eq_true, hord]
          simp
      · rw [if_neg h2]
        have hbad : badTok (l :: ls) = true := by
          simp only [badTok, List.any_cons, Bool.or_eq_true]
          left
          simp [isOrderTok, h1, h2]
        exact iff_of_true rfl (Or.inl hbad)

theorem tagLoop_ok_endian (n : String) : ∀ (ls : List String)
    (e e' : Option ByteOrder), tagLoop n ls e = .ok e' →
      e'.isSome = (e.isSome || decide (1 ≤ ordCount ls)) := by
  intro ls
  induction ls with
  | nil =>
    intro e e' h
    cases h
    simp [ordCount]
  | cons l ls ih =>
    intro e e' h
    simp only [tagLoop] at h
    by_cases h1 : l = ""
    · rw [if_pos h1] at h
      rw [ih e e' h]
      subst h1
      simp [ordCount, isOrderTok]
    · rw [if_neg h1] at h
      by_cases h2 : l = "be" ∨ l = "le"
      · rw [if_pos h2] at h
        cases e with
        | some x => exact Except.noConfusion h
        | none =>
          rw [ih _ e' h]
          have : isOrderTok l = true := by simp [isOrderTok, h2]
          simp [ordCount, List.filter_cons, this]
      · rw [if_neg h2] at h
        exact Except.noConfusion h

theorem newFieldTag_err_is (name tag : String) (uo : Option uintOptions) :
    match newFieldTag name tag uo with
    | .error e => e.is .tagFormat = true
    | .ok _ => True := by
  unfold newFieldTag
  cases hl : tagLoop name (stringsSplitComma tag) none with
  | error e => simpa using tagLoop_err_is name _ none e hl
  | ok e0 =>
    dsimp only
    split
    · rename_i e heq
      split at heq
      · cases heq; rfl
      · exact Except.noConfusion heq
    · trivial

theorem newFieldTag_error_iff (name tag : String) (uo : Option uintOptions) :
    exOk (newFieldTag name tag uo) = false ↔
      (badTok (stringsSplitComma tag) = true ∨
       2 ≤ ordCount (stringsSplitComma tag) ∨
       ((uo.map (·.NeedEndian)).getD false = true ∧
         ordCount (stringsSplitComma tag) = 0)) := by
  unfold newFieldTag
  cases hl : tagLoop name (stringsSplitComma tag) none with
  | error e =>
    have hthis := (tagLoop_error_iff name (stringsSplitComma tag) none).mp
      (by rw [hl]; rfl)
    refine iff_of_true rfl ?_
    rcases hthis with h | h
    · exact Or.inl h
    · refine Or.inr (Or.inl ?_)
      simpa using h
  | ok e0 =>
    have hsome := tagLoop_ok_endian name _ none e0 hl
    simp only [Option.isSome_none, Bool.false_or] at hsome
    have hR : ¬(badTok (stringsSplitComma tag) = true ∨
        2 ≤ ordCount (stringsSplitComma tag) +
          (if (none : Option ByteOrder).isSome then 1 else 0)) := by
      intro h
      have hcontra := (tagLoop_error_iff name (stringsSplitComma tag) none).mpr h
      rw [hl] at hcontra
      exact Bool.noConfusion hcontra
    push_neg at hR
    obtain ⟨hR1, hR2⟩ := hR
    simp only [Option.isSome_none, Bool.false_eq_true, if_false, Nat.add_zero] at hR2
    dsimp only
    by_cases hc : ((uo.map (·.NeedEndian)).getD false = true ∧ e0 = none)
    · rw [if_pos hc]
      refine iff_of_true rfl (Or.inr (Or.inr ⟨hc.1, ?_⟩))
      have he0 : e0.isSome = false := by rw [hc.2]; rfl
      rw [he0] at hsome
      have := of_decide_eq_false hsome.symm
      omega
    · rw [if_neg hc]
      refine iff_of_false (by simp [exOk]) ?_
      rintro (h | h | ⟨hne, hzero⟩)
      · rw [h] at hR1; exact hR1 rfl
      · omega
      · apply hc
        refine ⟨hne, ?_⟩
        have hdz : decide (1 ≤ ordCount (stringsSplitComma tag)) = false := by
          simp [hzero]
        rw [hdz] at hsome
        cases e0 with
        | none => rfl
        | some x => exact Bool.noConfusion hsome

/-- C4: byte-order resolution fails (with `ErrTagFormat`) exactly when the
annotation has a non-empty token other than `be`/`le`, or specifies a byte
order twice, or the field's kind requires a byte order (16/32/64-bit
unsigned) and none was given; every such failure is `ErrTagFormat`.  In
particular a `U32` field with annotation `""` fails plan construction with
`ErrTagFormat`, while `U8` and byte-sequence fields accept an absent or
supplied byte order. -/
theorem c4_tag_resolution :
    (∀ (f : Field),
      exOk (newFieldTag f.name f.tag (parseUintOptions f.kind)) = false ↔
        (badTok (stringsSplitComma f.tag) = true ∨
         2 ≤ ordCount (stringsSplitComma f.tag) ∨
         (((parseUintOptions f.kind).map (·.NeedEndian)).getD false = true ∧
           ordCount (stringsSplitComma f.tag) = 0))) ∧
    (∀ (name tag : String) (uo : Option uintOptions),
      match newFieldTag name tag uo with
      | .error e => e.is .tagFormat = true
      | .ok _ => True) ∧
    newFieldMarshaler ⟨"F", .uint32, "", ""⟩ =
      .error (.wrap "Endian not found" (.base .tagFormat)) ∧
    exOk (newFieldMarshaler ⟨"F", .uint8, "", ""⟩) = true ∧
    exOk (newFieldMarshaler ⟨"F", .uint8, "be", ""⟩) = true ∧
    exOk (newFieldMarshaler ⟨"F", .slice .uint8, "", ""⟩) = true ∧
    exOk (newFieldMarshaler ⟨"F", .slice .uint8, "le", ""⟩) = true ∧
    exOk (newFieldMarshaler ⟨"F", .array .uint8 4, "be", ""⟩) = true := by
  refine ⟨?_, ?_, rfl, rfl, rfl, rfl, rfl, rfl⟩
  · intro f
    exact newFieldTag_error_iff f.name f.tag (parseUintOptions f.kind)
  · intro name tag uo
    exact newFieldTag_err_is name tag uo

theorem exOk_ok (x : Except ε α) (h : exOk x = true) : ∃ a, x = .ok a := by
  cases x with
  | ok a => exact ⟨a, rfl⟩
  | error e => exact Bool.noConfusion h

theorem fieldM_unsupported (f : Field)
    (htag : exOk (newFieldTag f.name f.tag (parseUintOptions f.kind)) = true)
    (hks : kindSupported f.kind = false) :
    match newFieldMarshaler f with
    | .error e => e.is .invalidType = true
    | .ok _ => False := by
  simp only [newFieldMarshaler]
  cases htg : newFieldTag f.name f.tag (parseUintOptions f.kind) with
  | error e => rw [htg] at htag; exact Bool.noConfusion htag
  | ok t =>
    cases hk : f.kind with
    | uint8 => rw [hk] at hks; exact Bool.noConfusion hks
    | uint16 => rw [hk] at hks; exact Bool.noConfusion hks
    | uint32 => rw [hk] at hks; exact Bool.noConfusion hks
    | uint64 => rw [hk] at hks; exact Bool.noConfusion hks
    | int8 => simp [newMarshalFunc, hk, GoErr.is]
    | int16 => simp [newMarshalFunc, hk, GoErr.is]
    | int32 => simp [newMarshalFunc, hk, GoErr.is]
    | int64 => simp [newMarshalFunc, hk, GoErr.is]
    | array elem n =>
      rw [hk] at hks
      simp only [kindSupported, decide_eq_false_iff_not] at hks
      simp [newMarshalFunc, hk, hks, GoErr.is]
    | slice elem =>
      rw [hk] at hks
      simp only [kindSupported, decide_eq_false_iff_not] at hks
      simp [newMarshalFunc, hk, hks, GoErr.is]

theorem fieldM_supported (f : Field)
    (htag : exOk (newFieldTag f.name f.tag (parseUintOptions f.kind)) = true)
    (hks : kindSupported f.kind = true) :
    exOk (newFieldMarshaler f) = true := by
  simp only [newFieldMarshaler]
  cases htg : newFieldTag f.name f.tag (parseUintOptions f.kind) with
  | error e => rw [htg] at htag; exact Bool.noConfusion htag
  | ok t =>
    cases hk : f.kind with
    | uint8 => simp [newMarshalFunc, hk, exOk]
    | uint16 => simp [newMarshalFunc, hk, exOk]
    | uint32 => simp [newMarshalFunc, hk, exOk]
    | uint64 => simp [newMarshalFunc, hk, exOk]
    | int8 => rw [hk] at hks; exact Bool.noConfusion hks
    | int16 => rw [hk] at hks; exact Bool.noConfusion hks
    | int32 => rw [hk] at hks; exact Bool.noConfusion hks
    | int64 => rw [hk] at hks; exact Bool.noConfusion hks
    | array elem n =>
      rw [hk] at hks
      simp only [kindSupported, decide_eq_true_eq] at hks
      subst hks
      simp [newMarshalFunc, hk, exOk]
    | slice elem =>
      rw [hk] at hks
      simp only [kindSupported, decide_eq_true_eq] at hks
      subst hks
      simp [newMarshalFunc, hk, exOk]

theorem newMarshalerAux_invalid (fields : List Field) : ∀ (i : Nat),
    (∀ f ∈ fields, f.pkgPath = "" →
      exOk (newFieldTag f.name f.tag (parseUintOptions f.kind)) = true) →
    (∃ f ∈ fields, f.pkgPath = "" ∧ kindSupported f.kind = false) →
    ∃ e, newMarshalerAux i fields = .error e ∧ e.is .invalidType = true := by
  induction fields with
  | nil =>
    intro i htags hex
    obtain ⟨f, hf, -⟩ := hex
    exact absurd hf (List.not_mem_nil f)
  | cons f fs ih =>
    intro i htags hex
    by_cases hexp : f.pkgPath = ""
    · by_cases hks : kindSupported f.kind = true
      · obtain ⟨fm, hfm⟩ := exOk_ok _ (fieldM_supported f
          (htags f (List.mem_cons_self f fs) hexp) hks)
        have hex' : ∃ g ∈ fs, g.pkgPath = "" ∧ kindSupported g.kind = false := by
          rcases hex with ⟨g, hg, hgp, hgk⟩
          rcases List.mem_cons.mp hg with hgf | hgfs
          · subst hgf; rw [hks] at hgk; exact Bool.noConfusion hgk
          · exact ⟨g, hgfs, hgp, hgk⟩
        obtain ⟨e, herr, his⟩ := ih (i + 1)
          (fun g hg => htags g (List.mem_cons_of_mem f hg)) hex'
        refine ⟨e, ?_, his⟩
        rw [newMarshalerAux, if_neg (by simp [hexp]), hfm, herr]
      · have hbad := fieldM_unsupported f
          (htags f (List.mem_cons_self f fs) hexp)
          (Bool.eq_false_iff.mpr (fun h => hks h))
        cases hfm : newFieldMarshaler f with
        | ok fm => rw [hfm] at hbad; exact absurd hbad (by simp)
        | error e =>
          rw [hfm] at hbad
          refine ⟨e, ?_, hbad⟩
          rw [newMarshalerAux, if_neg (by simp [hexp]), hfm]
    · have hex' : ∃ g ∈ fs, g.pkgPath = "" ∧ kindSupported g.kind = false := by
        rcases hex with ⟨g, hg, hgp, hgk⟩
        rcases List.mem_cons.mp hg with hgf | hgfs
        · subst hgf; exact absurd hgp hexp
        · exact ⟨g, hgfs, hgp, hgk⟩
      obtain ⟨e, herr, his⟩ := ih (i + 1)
        (fun g hg => htags g (List.mem_cons_of_mem f hg)) hex'
      refine ⟨e, ?_, his⟩
      rw [newMarshalerAux, if_pos (by simp [hexp]), herr]

theorem fieldU_unsupported (f : Field)
    (htag : exOk (newFieldTag f.name f.tag (parseUintOptions f.kind)) = true)
    (hks : kindSupported f.kind = false) :
    match newFieldUnmarshaler f with
    | .error e => e.is .invalidType = true
    | .ok _ => False := by
  simp only [newFieldUnmarshaler]
  cases htg : newFieldTag f.name f.tag (parseUintOptions f.kind) with
  | error e => rw [htg] at htag; exact Bool.noConfusion htag
  | ok t =>
    cases hk : f.kind with
    | uint8 => rw [hk] at hks; exact Bool.noConfusion hks
    | uint16 => rw [hk] at hks; exact Bool.noConfusion hks
    | uint32 => rw [hk] at hks; exact Bool.noConfusion hks
    | uint64 => rw [hk] at hks; exact Bool.noConfusion hks
    | int8 => simp [newUnmarshalFunc, hk, GoErr.is]
    | int16 => simp [newUnmarshalFunc, hk, GoErr.is]
    | int32 => simp [newUnmarshalFunc, hk, GoErr.is]
    | int64 => simp [newUnmarshalFunc, hk, GoErr.is]
    | array elem n =>
      rw [hk] at hks
      simp only [kindSupported, decide_eq_false_iff_not] at hks
      simp [newUnmarshalFunc, hk, hks, GoErr.is]
    | slice elem =>
      rw [hk] at hks
      simp only [kindSupported, decide_eq_false_iff_not] at hks
      simp [newUnmarshalFunc, hk, hks, GoErr.is]

theorem fieldU_supported (f : Field)
    (htag : exOk (newFieldTag f.name f.tag (parseUintOptions f.kind)) = true)
    (hks : kindSupported f.kind = true) :
    exOk (newFieldUnmarshaler f) = true := by
  obtain ⟨fm, hfm⟩ := exOk_ok _ (fieldM_supported f htag hks)
  obtain ⟨fu, hfu⟩ := fieldUn_of_fieldM f fm hfm
  rw [hfu]
  rfl

theorem newUnmarshalerAux_invalid (fields : List Field) : ∀ (i : Nat),
    (∀ f ∈ fields, f.pkgPath = "" →
      exOk (newFieldTag f.name f.tag (parseUintOptions f.kind)) = true) →
    (∃ f ∈ fields, f.pkgPath = "" ∧ kindSupported f.kind = false) →
    ∃ e, newUnmarshalerAux i fields = .error e ∧ e.is .invalidType = true := by
  induction fields with
  | nil =>
    intro i htags hex
    obtain ⟨f, hf, -⟩ := hex
    exact absurd hf (List.not_mem_nil f)
  | cons f fs ih =>
    intro i htags hex
    by_cases hexp : f.pkgPath = ""
    · by_cases hks : kindSupported f.kind = true
      · obtain ⟨fu, hfu⟩ := exOk_ok _ (fieldU_supported f
          (htags f (List.mem_cons_self f fs) hexp) hks)
        have hex' : ∃ g ∈ fs, g.pkgPath = "" ∧ kindSupported g.kind = false := by
          rcases hex with ⟨g, hg, hgp, hgk⟩
          rcases List.mem_cons.mp hg with hgf | hgfs
          · subst hgf; rw [hks] at hgk; exact Bool.noConfusion hgk
          · exact ⟨g, hgfs, hgp, hgk⟩
        obtain ⟨e, herr, his⟩ := ih (i + 1)
          (fun g hg => htags g (List.mem_cons_of_mem f hg)) hex'
        refine ⟨e, ?_, his⟩
        rw [newUnmarshalerAux, if_neg (by simp [hexp]), hfu, herr]
      · have hbad := fieldU_unsupported f
          (htags f (List.mem_cons_self f fs) hexp)
          (Bool.eq_false_iff.mpr (fun h => hks h))
        cases hfu : newFieldUnmarshaler f with
        | ok fu => rw [hfu] at hbad; exact hbad.elim
        | error e =>
          rw [hfu] at hbad
          refine ⟨e, ?_, hbad⟩
          rw [newUnmarshalerAux, if_neg (by simp [hexp]), hfu]
    · have hex' : ∃ g ∈ fs, g.pkgPath = "" ∧ kindSupported g.kind = false := by
        rcases hex with ⟨g, hg, hgp, hgk⟩
        rcases List.mem_cons.mp hg with hgf | hgfs
        · subst hgf; exact absurd hgp hexp
        · exact ⟨g, hgfs, hgp, hgk⟩
      obtain ⟨e, herr, his⟩ := ih (i + 1)
        (fun g hg => htags g (List.mem_cons_of_mem f hg)) hex'
      refine ⟨e, ?_, his⟩
      rw [newUnmarshalerAux, if_pos (by simp [hexp]), herr]

/-- C5 counterexample: the record type `{A: uint16, no tag; B: int32}`
contains the exported unsupported-kind field `B`, yet `MarshalToWriter`
fails with `ErrTagFormat` (from `A`'s missing byte order), not
`ErrInvalidType` — refuting the claim as universally stated. -/
theorem c5_counterexample :
    (MarshalToWriter [] (.structV
        [⟨"A", .uint16, "", ""⟩, ⟨"B", .int32, "", ""⟩]
        [.uint 0, .other]) bufWriter []).2 =
      .val ([], 0, some (.wrap "Endian not found" (.base .tagFormat))) ∧
    GoErr.is (.wrap "Endian not found" (.base .tagFormat)) .invalidType = false ∧
    GoErr.is (.wrap "Endian not found" (.base .tagFormat)) .tagFormat = true :=
  ⟨rfl, rfl, rfl⟩

/-- C5 (amended): for a record type containing an exported field of an
unsupported kind, provided every exported field's tag annotation resolves
(otherwise `ErrTagFormat` takes precedence), all four entry points fail
with an error matching `ErrInvalidType`; the error arises during plan
construction: the count is 0, the sink/source is untouched (its state is
returned unchanged), the record is unmutated, and the cache is unchanged
(failures are not cached). -/
theorem c5_invalid_type (typ : List Field) (vals : List FieldValue)
    (htags : ∀ f ∈ typ, f.pkgPath = "" →
      exOk (newFieldTag f.name f.tag (parseUintOptions f.kind)) = true)
    (hex : ∃ f ∈ typ, f.pkgPath = "" ∧ kindSupported f.kind = false) :
    (∀ (σ : Type) (c : Cache marshaler) (w : Writer σ) (st : σ), MCoherent c →
      match MarshalToWriter c (.structV typ vals) w st with
      | (c', .val (st', n, some e)) =>
          c' = c ∧ st' = st ∧ n = 0 ∧ e.is .invalidType = true
      | _ => False) ∧
    (∀ (c : Cache marshaler), MCoherent c →
      match Marshal c (.structV typ vals) with
      | (c', .val (.error e)) => c' = c ∧ e.is .invalidType = true
      | _ => False) ∧
    (∀ (σ : Type) (uc : Cache unmarshaler) (r : Reader σ) (st : σ), UCoherent uc →
      match UnmarshalFromReader uc r (.ptr (.structV typ vals)) st with
      | (c', .val (st', sv, n, some e)) =>
          c' = uc ∧ st' = st ∧ sv = .ptr (.structV typ vals) ∧ n = 0 ∧
            e.is .invalidType = true
      | _ => False) ∧
    (∀ (uc : Cache unmarshaler) (data : List Nat), UCoherent uc →
      match Unmarshal uc data (.ptr (.structV typ vals)) with
      | (c', .val (sv, some e)) =>
          c' = uc ∧ sv = .ptr (.structV typ vals) ∧ e.is .invalidType = true
      | _ => False) := by
  obtain ⟨e, herr, his⟩ := newMarshalerAux_invalid typ 0 htags hex
  have hnm : newMarshaler typ = .error e := by
    unfold newMarshaler
    rw [herr]
  obtain ⟨e2, herr2, his2⟩ := newUnmarshalerAux_invalid typ 0 htags hex
  have hnu : newUnmarshaler typ = .error e2 := by
    unfold newUnmarshaler
    rw [herr2]
  refine ⟨?_, ?_, ?_, ?_⟩
  · intro σ c w st hc
    have hge := getMarshaler_error c typ hc e hnm
    simp only [MarshalToWriter, marshalValue, hge]
    simp [his]
  · intro c hc
    have hge := getMarshaler_error c typ hc e hnm
    simp only [Marshal, MarshalToWriter, marshalValue, hge]
    simp [his]
  · intro σ uc r st huc
    have hgu := getUnmarshaler_error uc typ huc e2 hnu
    simp only [UnmarshalFromReader, unmarshalValue, hgu]
    simp [his2]
  · intro uc data huc
    have hgu := getUnmarshaler_error uc typ huc e2 hnu
    simp only [Unmarshal, UnmarshalFromReader, unmarshalValue, hgu]
    simp [his2]

/-- Witness for C5 (amended) at the concrete single-field record
`{B: int32}` (tag resolves, kind unsupported): `MarshalToWriter` fails
with an `ErrInvalidType`-matching error, count 0, sink and cache
untouched. -/
theorem c5_invalid_type_witness :
    (match MarshalToWriter [] (.structV [⟨"B", .int32, "", ""⟩] [.other])
        bufWriter ([] : List Nat) with
    | (c', .val (st', n, some e)) =>
        c' = [] ∧ st' = [] ∧ n = 0 ∧ e.is .invalidType = true
    | _ => False) :=
  (c5_invalid_type [⟨"B", .int32, "", ""⟩] [.other]
    (by decide) (by decide)).1 (List Nat) [] bufWriter []
    (by intro t m h; simp [cacheLoad] at h)

theorem fieldLen_scalar_bad (f : Field) (v : FieldValue)
    (h : scalarUnsupported f.kind = true) :
    ∃ e, fieldLen f v = .val (0, some e) ∧ e.is .invalidType = true := by
  cases hk : f.kind with
  | uint8 => rw [hk] at h; exact Bool.noConfusion h
  | uint16 => rw [hk] at h; exact Bool.noConfusion h
  | uint32 => rw [hk] at h; exact Bool.noConfusion h
  | uint64 => rw [hk] at h; exact Bool.noConfusion h
  | array elem n => rw [hk] at h; exact Bool.noConfusion h
  | slice elem => rw [hk] at h; exact Bool.noConfusion h
  | int8 =>
    refine ⟨.wrap ("field:" ++ f.name ++ " type kind:" ++ "int8" ++ " not support")
      (.base .invalidType), ?_, rfl⟩
    simp [fieldLen, hk, GoKind.str]
  | int16 =>
    refine ⟨.wrap ("field:" ++ f.name ++ " type kind:" ++ "int16" ++ " not support")
      (.base .invalidType), ?_, rfl⟩
    simp [fieldLen, hk, GoKind.str]
  | int32 =>
    refine ⟨.wrap ("field:" ++ f.name ++ " type kind:" ++ "int32" ++ " not support")
      (.base .invalidType), ?_, rfl⟩
    simp [fieldLen, hk, GoKind.str]
  | int64 =>
    refine ⟨.wrap ("field:" ++ f.name ++ " type kind:" ++ "int64" ++ " not support")
      (.base .invalidType), ?_, rfl⟩
    simp [fieldLen, hk, GoKind.str]

theorem fieldLen_scalar_ok (f : Field) (v : FieldValue)
    (h : scalarUnsupported f.kind = false)
    (hs : seqShapeOk f.kind v = true) :
    ∃ l, fieldLen f v = .val (l, none) := by
  cases hk : f.kind with
  | uint8 => exact ⟨1, by simp [fieldLen, hk]⟩
  | uint16 => exact ⟨2, by simp [fieldLen, hk]⟩
  | uint32 => exact ⟨4, by simp [fieldLen, hk]⟩
  | uint64 => exact ⟨8, by simp [fieldLen, hk]⟩
  | int8 => rw [hk] at h; exact Bool.noConfusion h
  | int16 => rw [hk] at h; exact Bool.noConfusion h
  | int32 => rw [hk] at h; exact Bool.noConfusion h
  | int64 => rw [hk] at h; exact Bool.noConfusion h
  | array elem n =>
    rw [hk] at hs
    cases v with
    | bytes bs => exact ⟨bs.length, by simp [fieldLen, hk]⟩
    | nonBytes len => exact ⟨len, by simp [fieldLen, hk]⟩
    | uint m => simp [seqShapeOk] at hs
    | other => simp [seqShapeOk] at hs
  | slice elem =>
    rw [hk] at hs
    cases v with
    | bytes bs => exact ⟨bs.length, by simp [fieldLen, hk]⟩
    | nonBytes len => exact ⟨len, by simp [fieldLen, hk]⟩
    | uint m => simp [seqShapeOk] at hs
    | other => simp [seqShapeOk] at hs

theorem structLenAux_invalid (fields : List Field) :
    ∀ (vals : List FieldValue) (acc : Nat),
    lenShapeOk fields vals = true →
    (∃ f ∈ fields, f.pkgPath = "" ∧ scalarUnsupported f.kind = true) →
    match structLenAux fields vals acc with
    | .val (n, some e) => n = 0 ∧ e.is .invalidType = true
    | _ => False := by
  induction fields with
  | nil =>
    intro vals acc hshape hex
    obtain ⟨f, hf, -⟩ := hex
    exact absurd hf (List.not_mem_nil f)
  | cons f fs ih =>
    intro vals acc hshape hex
    cases vals with
    | nil => simp [lenShapeOk] at hshape
    | cons v vs =>
      simp only [lenShapeOk, Bool.and_eq_true, Bool.or_eq_true] at hshape
      obtain ⟨hshape1, hshape2⟩ := hshape
      by_cases hexp : f.pkgPath = ""
      · by_cases hsu : scalarUnsupported f.kind = true
        · obtain ⟨e, herr, his⟩ := fieldLen_scalar_bad f v hsu
          simp only [structLenAux, if_neg (by simp [hexp] : ¬f.pkgPath ≠ ""), herr]
          exact ⟨trivial, his⟩
        · have hs1 : seqShapeOk f.kind v = true := by
            rcases hshape1 with h | h
            · simp [hexp] at h
            · exact h
          obtain ⟨l, hl⟩ := fieldLen_scalar_ok f v
            (Bool.eq_false_iff.mpr (fun h => hsu h)) hs1
          have hex' : ∃ g ∈ fs, g.pkgPath = "" ∧ scalarUnsupported g.kind = true := by
            rcases hex with ⟨g, hg, hgp, hgk⟩
            rcases List.mem_cons.mp hg with hgf | hgfs
            · subst hgf; exact absurd hgk hsu
            · exact ⟨g, hgfs, hgp, hgk⟩
          simp only [structLenAux, if_neg (by simp [hexp] : ¬f.pkgPath ≠ ""), hl]
          exact ih vs (acc + l) hshape2 hex'
      · have hex' : ∃ g ∈ fs, g.pkgPath = "" ∧ scalarUnsupported g.kind = true := by
          rcases hex with ⟨g, hg, hgp, hgk⟩
          rcases List.mem_cons.mp hg with hgf | hgfs
          · subst hgf; exact absurd hgp hexp
          · exact ⟨g, hgfs, hgp, hgk⟩
        simp only [structLenAux, if_pos (by simp [hexp] : f.pkgPath ≠ "")]
        exact ih vs acc hshape2 hex'

/-- C8 counterexample: a record whose only exported field is a slice of
32-bit integers of length 3 makes `StructLen` return the element count 3
with no error — not `ErrInvalidType` — because `fieldLen` accepts every
array/slice kind without inspecting the element type. -/
theorem c8_counterexample :
    StructLen (.structV [⟨"A", .slice .uint32, "", ""⟩] [.nonBytes 3]) =
      .val (3, none) :=
  rfl

/-- C8 (amended): `StructLen` returns `ErrInvalidType` for records
containing an exported field of a non-sequence unsupported kind (e.g. a
signed integer scalar); but an array/slice field of any element type is
accepted and contributes its current element count — in particular a
record whose only field is a slice of any element kind with current
length `n` yields `n` with no error. -/
theorem c8_structlen (typ : List Field) (vals : List FieldValue)
    (hshape : lenShapeOk typ vals = true)
    (hex : ∃ f ∈ typ, f.pkgPath = "" ∧ scalarUnsupported f.kind = true) :
    (match StructLen (.structV typ vals) with
      | .val (n, some e) => n = 0 ∧ e.is .invalidType = true
      | _ => False) ∧
    (∀ (name : String) (elem : GoKind) (n : Nat),
      StructLen (.structV [⟨name, .slice elem, "", ""⟩] [.nonBytes n]) =
        .val (n, none)) := by
  constructor
  · exact structLenAux_invalid typ vals 0 hshape hex
  · intro name elem n
    simp [StructLen, structLenAux, fieldLen]

/-- Witness for C8 (amended) at the concrete record `{A: int8}`:
`StructLen` fails with an `ErrInvalidType`-matching error and count 0. -/
theorem c8_structlen_witness :
    (match StructLen (.structV [⟨"A", .int8, "", ""⟩] [.other]) with
      | .val (n, some e) => n = 0 ∧ e.is .invalidType = true
      | _ => False) :=
  (c8_structlen [⟨"A", .int8, "", ""⟩] [.other] (by decide) (by decide)).1

/-- C7: for every field operation, a single write accepted short (without a
sink error) fails with `ErrWriteDataLen`; a single read returning fewer
bytes than required (without a source error) fails with `ErrReadData`; an
error from the sink/source itself propagates (wrapped for `putUint` and
`getUint`, verbatim for the byte-sequence operations) and, for an
I/O-layer error, matches neither `ErrReadData` nor `ErrWriteDataLen`.
This covers every bit size the factory passes — the multi-byte sizes 2, 4
and 8, and the `U8` operation's bit size 1, whose byte order may be absent.
In every case the final sink/source state is exactly the state after that
one `write`/`read` call — there is no retry-until-full. -/
theorem c7_short_io :
    (∀ (σ : Type) (w : Writer σ) (s : σ) (ui : Nat) (e : ByteOrder)
      (bitSize : Nat), (bitSize = 2 ∨ bitSize = 4 ∨ bitSize = 8) →
      ∀ (s' : σ) (n : Nat),
      w.write s (orderPut e bitSize ui) = (s', n, none) → n ≠ bitSize →
      putUint ui (some e) bitSize w s =
        .val (s', 0, some (.wrap ("write data len[" ++ toString n ++
          "] not equal to bit size[" ++ toString bitSize ++ "]")
          (.base .writeDataLen)))) ∧
    (∀ (σ : Type) (w : Writer σ) (s : σ) (ui : Nat) (e : ByteOrder)
      (bitSize : Nat), (bitSize = 2 ∨ bitSize = 4 ∨ bitSize = 8) →
      ∀ (s' : σ) (n : Nat) (err : GoErr),
      w.write s (orderPut e bitSize ui) = (s', n, some err) →
      putUint ui (some e) bitSize w s =
        .val (s', 0, some (.wrap "write data error" err))) ∧
    (∀ (σ : Type) (r : Reader σ) (s : σ) (e : ByteOrder) (bitSize : Nat),
      (bitSize = 2 ∨ bitSize = 4 ∨ bitSize = 8) →
      ∀ (s' : σ) (bs : List Nat),
      r.read s bitSize = (s', bs, none) → bs.length ≠ bitSize →
      getUint (some e) bitSize r s =
        .val (s', 0, 0, some (.wrap ("read bit size[" ++ toString bs.length ++
          "] not equal to bit size[" ++ toString bitSize ++ "]")
          (.base .readData)))) ∧
    (∀ (σ : Type) (r : Reader σ) (s : σ) (e : ByteOrder) (bitSize : Nat),
      (bitSize = 2 ∨ bitSize = 4 ∨ bitSize = 8) →
      ∀ (s' : σ) (bs : List Nat) (err : GoErr),
      r.read s bitSize = (s', bs, some err) →
      getUint (some e) bitSize r s =
        .val (s', 0, 0, some (.wrap "read data error" err))) ∧
    (∀ (σ : Type) (w : Writer σ) (s : σ) (ui : Nat)
      (endian : Option ByteOrder) (s' : σ) (n : Nat),
      w.write s [ui % 256] = (s', n, none) → n ≠ 1 →
      putUint ui endian 1 w s =
        .val (s', 0, some (.wrap ("write data len[" ++ toString n ++
          "] not equal to bit size[" ++ toString 1 ++ "]")
          (.base .writeDataLen)))) ∧
    (∀ (σ : Type) (w : Writer σ) (s : σ) (ui : Nat)
      (endian : Option ByteOrder) (s' : σ) (n : Nat) (err : GoErr),
      w.write s [ui % 256] = (s', n, some err) →
      putUint ui endian 1 w s =
        .val (s', 0, some (.wrap "write data error" err))) ∧
    (∀ (σ : Type) (r : Reader σ) (s : σ) (endian : Option ByteOrder)
      (s' : σ) (bs : List Nat),
      r.read s 1 = (s', bs, none) → bs.length ≠ 1 →
      getUint endian 1 r s =
        .val (s', 0, 0, some (.wrap ("read bit size[" ++ toString bs.length ++
          "] not equal to bit size[" ++ toString 1 ++ "]")
          (.base .readData)))) ∧
    (∀ (σ : Type) (r : Reader σ) (s : σ) (endian : Option ByteOrder)
      (s' : σ) (bs : List Nat) (err : GoErr),
      r.read s 1 = (s', bs, some err) →
      getUint endian 1 r s =
        .val (s', 0, 0, some (.wrap "read data error" err))) ∧
    (∀ (σ : Type) (w : Writer σ) (s : σ) (bs : List Nat) (s' : σ) (n : Nat),
      w.write s bs = (s', n, none) → n ≠ bs.length →
      seqMarshalOp (.bytes bs) w s =
        .val (s', 0, some (.wrap ("write data len[" ++ toString n ++
          "] not equal to data len[" ++ toString bs.length ++ "]")
          (.base .writeDataLen)))) ∧
    (∀ (σ : Type) (w : Writer σ) (s : σ) (bs : List Nat) (s' : σ) (n : Nat)
      (err : GoErr), w.write s bs = (s', n, some err) →
      seqMarshalOp (.bytes bs) w s = .val (s', 0, some err)) ∧
    (∀ (σ : Type) (r : Reader σ) (s : σ) (cur : List Nat) (s' : σ)
      (bs : List Nat), r.read s cur.length = (s', bs, none) →
      bs.length ≠ cur.length →
      seqUnmarshalOp (.bytes cur) r s =
        .val (s', .bytes cur, 0, some (.base .readData))) ∧
    (∀ (σ : Type) (r : Reader σ) (s : σ) (cur : List Nat) (s' : σ)
      (bs : List Nat) (err : GoErr), r.read s cur.length = (s', bs, some err) →
      seqUnmarshalOp (.bytes cur) r s = .val (s', .bytes cur, 0, some err)) ∧
    (∀ (msg : String) (k : Nat),
      (GoErr.wrap msg (.base (.ioFail k))).is .readData = false ∧
      (GoErr.wrap msg (.base (.ioFail k))).is .writeDataLen = false ∧
      (GoErr.wrap msg (.base (.ioFail k))).is (.ioFail k) = true) := by
  refine ⟨?_, ?_, ?_, ?_, ?_, ?_, ?_, ?_, ?_, ?_, ?_, ?_, ?_⟩
  · intro σ w s ui e bitSize hb s' n hw hn
    rcases hb with hb | hb | hb <;> subst hb <;>
      simp [putUint, putUintWrite, hw, hn]
  · intro σ w s ui e bitSize hb s' n err hw
    rcases hb with hb | hb | hb <;> subst hb <;>
      simp [putUint, putUintWrite, hw]
  · intro σ r s e bitSize hb s' bs hr hn
    rcases hb with hb | hb | hb <;> subst hb <;>
      simp [getUint, hr, hn]
  · intro σ r s e bitSize hb s' bs err hr
    rcases hb with hb | hb | hb <;> subst hb <;>
      simp [getUint, hr]
  · intro σ w s ui endian s' n hw hn
    simp [putUint, putUintWrite, hw, hn]
  · intro σ w s ui endian s' n err hw
    simp [putUint, putUintWrite, hw]
  · intro σ r s endian s' bs hr hn
    simp [getUint, hr, hn]
  · intro σ r s endian s' bs err hr
    simp [getUint, hr]
  · intro σ w s bs s' n hw hn
    simp [seqMarshalOp, hw, hn]
  · intro σ w s bs s' n err hw
    simp [seqMarshalOp, hw]
  · intro σ r s cur s' bs hr hn
    simp [seqUnmarshalOp, hr, hn]
  · intro σ r s cur s' bs err hr
    simp [seqUnmarshalOp, hr]
  · intro msg k
    exact ⟨rfl, rfl, by simp [GoErr.is]⟩

/-- Witness for C7: a sink accepting 3 of the 4 bytes of a `U32` yields
`ErrWriteDataLen`; a source yielding 3 of 4 yields `ErrReadData`; and for
the `U8` operation (bit size 1, no byte order), a sink accepting 0 of its
1 byte yields `ErrWriteDataLen` and a source yielding 0 of 1 yields
`ErrReadData`. -/
theorem c7_short_io_witness :
    putUint 0x01020304 (some .be) 4 shortWriter () =
      .val ((), 0, some (.wrap "write data len[3] not equal to bit size[4]"
        (.base .writeDataLen))) ∧
    getUint (some .be) 4 shortReader () =
      .val ((), 0, 0, some (.wrap "read bit size[3] not equal to bit size[4]"
        (.base .readData))) ∧
    putUint 0xAB none 1 shortWriter () =
      .val ((), 0, some (.wrap "write data len[0] not equal to bit size[1]"
        (.base .writeDataLen))) ∧
    getUint none 1 shortReader () =
      .val ((), 0, 0, some (.wrap "read bit size[0] not equal to bit size[1]"
        (.base .readData))) :=
  ⟨c7_short_io.1 Unit shortWriter () 0x01020304 .be 4 (Or.inr (Or.inl rfl))
      () 3 rfl (by decide),
   c7_short_io.2.2.1 Unit shortReader () .be 4 (Or.inr (Or.inl rfl))
      () (List.replicate 3 0) rfl (by decide),
   c7_short_io.2.2.2.2.1 Unit shortWriter () 0xAB none () 0 rfl (by decide),
   c7_short_io.2.2.2.2.2.2.1 Unit shortReader () none () [] rfl
      (by decide)⟩

theorem putUintWrite_isVal (b : List Nat) (bitSize : Nat) (w : Writer σ)
    (s : σ) : (putUintWrite b bitSize w s).isVal = true := by
  unfold putUintWrite
  rcases w.write s b with ⟨s', n, err⟩
  cases err with
  | some e => rfl
  | none =>
    dsimp only
    split <;> rfl

theorem putUint_isVal_one (ui : Nat) (endian : Option ByteOrder)
    (w : Writer σ) (s : σ) : (putUint ui endian 1 w s).isVal = true := by
  simp [putUint, putUintWrite_isVal]

theorem putUint_isVal_multi (ui : Nat) (e : ByteOrder) (bitSize : Nat)
    (h : bitSize = 2 ∨ bitSize = 4 ∨ bitSize = 8) (w : Writer σ) (s : σ) :
    (putUint ui (some e) bitSize w s).isVal = true := by
  rcases h with h | h | h <;> subst h <;> simp [putUint, putUintWrite_isVal]

theorem getUint_isVal_one (endian : Option ByteOrder) (r : Reader σ) (s : σ) :
    (getUint endian 1 r s).isVal = true := by
  unfold getUint
  rw [if_neg (by simp)]
  rcases r.read s 1 with ⟨s', bs, err⟩
  cases err with
  | some e => rfl
  | none =>
    dsimp only
    split
    · rfl
    · rfl

theorem getUint_isVal_multi (e : ByteOrder) (bitSize : Nat)
    (h : bitSize = 2 ∨ bitSize = 4 ∨ bitSize = 8) (r : Reader σ) (s : σ) :
    (getUint (some e) bitSize r s).isVal = true := by
  rcases h with h | h | h <;> subst h <;>
  · unfold getUint
    rw [if_neg (by simp)]
    rcases r.read s _ with ⟨s', bs, err⟩
    cases err with
    | some e2 => rfl
    | none =>
      dsimp only
      split
      · rfl
      · rfl

theorem seqMarshalOp_isVal (bs : List Nat) (w : Writer σ) (s : σ) :
    (seqMarshalOp (.bytes bs) w s).isVal = true := by
  simp only [seqMarshalOp]
  rcases hwr : w.write s bs with ⟨s', n, err⟩
  cases err with
  | some e => rfl
  | none =>
    dsimp only
    split <;> rfl

theorem seqUnmarshalOp_isVal (cur : List Nat) (r : Reader σ) (s : σ) :
    (seqUnmarshalOp (.bytes cur) r s).isVal = true := by
  simp only [seqUnmarshalOp]
  rcases hrr : r.read s cur.length with ⟨s', bs, err⟩
  cases err with
  | some e => rfl
  | none =>
    dsimp only
    split <;> rfl

theorem fieldMarshal_noPanic (f : Field) (v : FieldValue)
    (hv : fits f.kind v = true) (σ : Type) (w : Writer σ) (s : σ) :
    match newFieldMarshaler f with
    | .ok fm => (fm.marshalFn v w s).isVal = true
    | .error _ => True := by
  simp only [newFieldMarshaler]
  cases htag : newFieldTag f.name f.tag (parseUintOptions f.kind) with
  | error e => simp
  | ok t =>
    cases hk : f.kind with
    | uint8 =>
      cases v <;> rw [hk] at hv <;> simp [fits] at hv
      simp [newMarshalFunc, hk, parseUintOptions, putUint_isVal_one]
    | uint16 =>
      cases v <;> rw [hk] at hv <;> simp [fits] at hv
      rw [hk] at htag
      simp only [parseUintOptions] at htag
      obtain ⟨e, he⟩ := newFieldTag_endian_some _ _ _ _ htag rfl
      simp [newMarshalFunc, hk, parseUintOptions, he,
        putUint_isVal_multi _ e 2 (Or.inl rfl)]
    | uint32 =>
      cases v <;> rw [hk] at hv <;> simp [fits] at hv
      rw [hk] at htag
      simp only [parseUintOptions] at htag
      obtain ⟨e, he⟩ := newFieldTag_endian_some _ _ _ _ htag rfl
      simp [newMarshalFunc, hk, parseUintOptions, he,
        putUint_isVal_multi _ e 4 (Or.inr (Or.inl rfl))]
    | uint64 =>
      cases v <;> rw [hk] at hv <;> simp [fits] at hv
      rw [hk] at htag
      simp only [parseUintOptions] at htag
      obtain ⟨e, he⟩ := newFieldTag_endian_some _ _ _ _ htag rfl
      simp [newMarshalFunc, hk, parseUintOptions, he,
        putUint_isVal_multi _ e 8 (Or.inr (Or.inr rfl))]
    | int8 => rw [hk] at hv; cases v <;> simp [fits] at hv
    | int16 => rw [hk] at hv; cases v <;> simp [fits] at hv
    | int32 => rw [hk] at hv; cases v <;> simp [fits] at hv
    | int64 => rw [hk] at hv; cases v <;> simp [fits] at hv
    | array elem n =>
      cases v <;> rw [hk] at hv <;> simp [fits] at hv
      obtain ⟨helem, -, -⟩ := hv
      subst helem
      simp [newMarshalFunc, hk, seqMarshalOp_isVal]
    | slice elem =>
      cases v <;> rw [hk] at hv <;> simp [fits] at hv
      obtain ⟨helem, -⟩ := hv
      subst helem
      simp [newMarshalFunc, hk, seqMarshalOp_isVal]

theorem fieldUnmarshal_noPanic (f : Field) (d : FieldValue)
    (hd : fits f.kind d = true) (σ : Type) (r : Reader σ) (s : σ) :
    match newFieldUnmarshaler f with
    | .ok fu => (fu.unmarshalFn d r s).isVal = true
    | .error _ => True := by
  simp only [newFieldUnmarshaler]
  cases htag : newFieldTag f.name f.tag (parseUintOptions f.kind) with
  | error e => simp
  | ok t =>
    cases hk : f.kind with
    | uint8 =>
      cases d <;> rw [hk] at hd <;> simp [fits] at hd
      rename_i m
      simp only [newUnmarshalFunc, hk, parseUintOptions]
      have hval := getUint_isVal_one t.endian r s
      cases hg : getUint t.endian 1 r s with
      | panic msg => rw [hg] at hval; exact Bool.noConfusion hval
      | val a =>
        rcases a with ⟨s', ui, n, err⟩
        cases err <;> rfl
    | uint16 =>
      cases d <;> rw [hk] at hd <;> simp [fits] at hd
      rename_i m
      rw [hk] at htag
      simp only [parseUintOptions] at htag
      obtain ⟨e, he⟩ := newFieldTag_endian_some _ _ _ _ htag rfl
      simp only [newUnmarshalFunc, hk, parseUintOptions, he]
      have hval := getUint_isVal_multi e 2 (Or.inl rfl) r s
      cases hg : getUint (some e) 2 r s with
      | panic msg => rw [hg] at hval; exact Bool.noConfusion hval
      | val a =>
        rcases a with ⟨s', ui, n, err⟩
        cases err <;> rfl
    | uint32 =>
      cases d <;> rw [hk] at hd <;> simp [fits] at hd
      rename_i m
      rw [hk] at htag
      simp only [parseUintOptions] at htag
      obtain ⟨e, he⟩ := newFieldTag_endian_some _ _ _ _ htag rfl
      simp only [newUnmarshalFunc, hk, parseUintOptions, he]
      have hval := getUint_isVal_multi e 4 (Or.inr (Or.inl rfl)) r s
      cases hg : getUint (some e) 4 r s with
      | panic msg => rw [hg] at hval; exact Bool.noConfusion hval
      | val a =>
        rcases a with ⟨s', ui, n, err⟩
        cases err <;> rfl
    | uint64 =>
      cases d <;> rw [hk] at hd <;> simp [fits] at hd
      rename_i m
      rw [hk] at htag
      simp only [parseUintOptions] at htag
      obtain ⟨e, he⟩ := newFieldTag_endian_some _ _ _ _ htag rfl
      simp only [newUnmarshalFunc, hk, parseUintOptions, he]
      have hval := getUint_isVal_multi e 8 (Or.inr (Or.inr rfl)) r s
      cases hg : getUint (some e) 8 r s with
      | panic msg => rw [hg] at hval; exact Bool.noConfusion hval
      | val a =>
        rcases a with ⟨s', ui, n, err⟩
        cases err <;> rfl
    | int8 => rw [hk] at hd; cases d <;> simp [fits] at hd
    | int16 => rw [hk] at hd; cases d <;> simp [fits] at hd
    | int32 => rw [hk] at hd; cases d <;> simp [fits] at hd
    | int64 => rw [hk] at hd; cases d <;> simp [fits] at hd
    | array elem n =>
      cases d <;> rw [hk] at hd <;> simp [fits] at hd
      obtain ⟨helem, -, -⟩ := hd
      subst helem
      simp [newUnmarshalFunc, hk, seqUnmarshalOp_isVal]
    | slice elem =>
      cases d <;> rw [hk] at hd <;> simp [fits] at hd
      obtain ⟨helem, -⟩ := hd
      subst helem
      simp [newUnmarshalFunc, hk, seqUnmarshalOp_isVal]

/-- C9: every field operation that `newFieldMarshaler`/`newFieldUnmarshaler`
successfully constructs never panics when run on a well-typed field value —
in particular the `putUint`/`getUint` panic branches ("endianness bitSize
is too large", "invalid bitSize") are unreachable, because the closures
always pass a bit size in {1, 2, 4, 8} and tag resolution has already
guaranteed a byte order whenever the bit size exceeds 1. -/
theorem c9_no_panic :
    (∀ (f : Field) (fm : fieldMarshaler), newFieldMarshaler f = .ok fm →
      ∀ (v : FieldValue), fits f.kind v = true →
      ∀ (σ : Type) (w : Writer σ) (s : σ), (fm.marshalFn v w s).isVal = true) ∧
    (∀ (f : Field) (fu : fieldUnmarshaler), newFieldUnmarshaler f = .ok fu →
      ∀ (d : FieldValue), fits f.kind d = true →
      ∀ (σ : Type) (r : Reader σ) (s : σ), (fu.unmarshalFn d r s).isVal = true) := by
  constructor
  · intro f fm hfm v hv σ w s
    have h := fieldMarshal_noPanic f v hv σ w s
    rw [hfm] at h
    exact h
  · intro f fu hfu d hd σ r s
    have h := fieldUnmarshal_noPanic f d hd σ r s
    rw [hfu] at h
    exact h

/-- Witness for C9: the operations built for a `uint16` big-endian field
run without panicking against a short-writing sink and short-reading
source. -/
theorem c9_no_panic_witness :
    ((fmGet (newFieldMarshaler ⟨"A", .uint16, "be", ""⟩)).marshalFn
      (.uint 5) shortWriter ()).isVal = true ∧
    ((fuGet (newFieldUnmarshaler ⟨"A", .uint16, "be", ""⟩)).unmarshalFn
      (.uint 0) shortReader ()).isVal = true :=
  ⟨c9_no_panic.1 ⟨"A", .uint16, "be", ""⟩ _ rfl (.uint 5) (by decide)
      Unit shortWriter (),
   c9_no_panic.2 ⟨"A", .uint16, "be", ""⟩ _ rfl (.uint 0) (by decide)
      Unit shortReader ()⟩

theorem runMarshaler_err_zero : ∀ (plan : List (Nat × fieldMarshaler))
    (vals : List FieldValue) (σ : Type) (w : Writer σ) (s : σ) (n₀ : Nat),
    match runMarshaler plan vals w s n₀ with
    | .val (_, n, some _) => n = 0
    | _ => True := by
  intro plan
  induction plan with
  | nil => intro vals σ w s n₀; trivial
  | cons hd rest ih =>
    intro vals σ w s n₀
    rcases hd with ⟨idx, fm⟩
    simp only [runMarshaler]
    cases hv : vals[idx]? with
    | none => trivial
    | some v =>
      dsimp only
      cases hfm : fm.marshalFn v w s with
      | panic m => trivial
      | val a =>
        rcases a with ⟨s', num, err⟩
        cases err with
        | some e => rfl
        | none => exact ih vals σ w s' (n₀ + num)

theorem runUnmarshaler_err_zero : ∀ (uplan : List (Nat × fieldUnmarshaler))
    (vals : List FieldValue) (σ : Type) (r : Reader σ) (s : σ) (n₀ : Nat),
    match runUnmarshaler uplan vals r s n₀ with
    | .val (_, _, n, some _) => n = 0
    | _ => True := by
  intro uplan
  induction uplan with
  | nil => intro vals σ r s n₀; trivial
  | cons hd rest ih =>
    intro vals σ r s n₀
    rcases hd with ⟨idx, fu⟩
    simp only [runUnmarshaler]
    cases hv : vals[idx]? with
    | none => trivial
    | some v =>
      dsimp only
      cases hfu : fu.unmarshalFn v r s with
      | panic m => trivial
      | val a =>
        rcases a with ⟨s', v', num, err⟩
        cases err with
        | some e => rfl
        | none => exact ih (vals.set idx v') σ r s' (n₀ + num)

/-- C10: whenever `MarshalToWriter` or `UnmarshalFromReader` returns a
non-nil error, the byte count it returns is 0 — the accumulated partial
count is discarded — even though earlier fields may already have been
written to the sink or decoded into the record: in the concrete
demonstration a two-`U8` record against a one-byte-capacity sink leaves
the first byte in the sink yet reports count 0 with the error. -/
theorem c10_zero_count_on_error :
    (∀ (σ : Type) (c : Cache marshaler) (sv : GoValue) (w : Writer σ) (st : σ),
      match (MarshalToWriter c sv w st).2 with
      | .val (_, n, some _) => n = 0
      | _ => True) ∧
    (∀ (σ : Type) (uc : Cache unmarshaler) (r : Reader σ) (sv : GoValue)
      (st : σ),
      match (UnmarshalFromReader uc r sv st).2 with
      | .val (_, _, n, some _) => n = 0
      | _ => True) ∧
    (MarshalToWriter [] (.structV [⟨"A", .uint8, "", ""⟩, ⟨"B", .uint8, "", ""⟩]
        [.uint 7, .uint 9]) cappedWriter ([], 1)).2 =
      .val (([7], 0), 0, some (.wrap "write data len[0] not equal to bit size[1]"
        (.base .writeDataLen))) := by
  refine ⟨?_, ?_, rfl⟩
  · intro σ c sv w st
    unfold MarshalToWriter
    cases hd : (match sv with | .ptr v => v | v => v) with
    | structV typ vals =>
      dsimp only
      unfold marshalValue
      cases hg : getMarshaler c typ with
      | mk c2 res =>
        cases res with
        | error e => rfl
        | ok m => exact runMarshaler_err_zero m.plan vals σ w st 0
    | ptr v => rfl
    | nonStruct => rfl
  · intro σ uc r sv st
    unfold UnmarshalFromReader
    cases sv with
    | structV typ vals => rfl
    | nonStruct => rfl
    | ptr inner =>
      cases inner with
      | ptr v => rfl
      | nonStruct => rfl
      | structV typ vals =>
        dsimp only
        unfold unmarshalValue
        cases hg : getUnmarshaler uc typ with
        | mk c2 res =>
          cases res with
          | error e => rfl
          | ok u =>
            dsimp only
            have h := runUnmarshaler_err_zero u.plan vals σ r st 0
            cases hr : runUnmarshaler u.plan vals r st 0 with
            | panic m => trivial
            | val a =>
              rcases a with ⟨s', vals', n, err⟩
              rw [hr] at h
              cases err with
              | some e => simpa using h
              | none => trivial

end Structraw
